import Mathlib

/-!
Verification of the terminal presentation core of the todoforai CLI:
the raw-mode multiline editor of `src/index.ts` (geometry, escape parsing,
buffer editing, bracketed paste, submit) and the diff renderer of
`src/diff-view.ts` (line windowing, output cap, ANSI-aware slicing).

Buffers and strings are modelled as `List Char`; JS string primitives
(`slice`, `split`, `indexOf`, `lastIndexOf`, regex replaces) are given
faithful list-level models below.
-/

namespace TodoCli

/-! ### JS string primitives over `List Char` -/

/-- Ceiling division, `Math.ceil(a / b)` for naturals. -/
def ceilDiv (a b : Nat) : Nat := (a + b - 1) / b

/-- `pat` occurs at the head of `l`. -/
def leadsWith : List Char → List Char → Bool
  | [], _ => true
  | _ :: _, [] => false
  | a :: as, b :: bs => a = b && leadsWith as bs

/-- JS `l.indexOf(pat)`: position of the first occurrence of a substring. -/
def indexOfSub? (pat : List Char) : List Char → Option Nat
  | [] => if pat = [] then some 0 else none
  | c :: rest =>
    if leadsWith pat (c :: rest) then some 0 else (indexOfSub? pat rest).map (· + 1)

/-- Index of the last `'\n'` in `l`, or `-1` when there is none. -/
def lastNlIdx : List Char → Int
  | [] => -1
  | c :: rest =>
    let r := lastNlIdx rest
    if 0 ≤ r then r + 1 else if c = '\n' then 0 else -1

/-- JS `buf.lastIndexOf("\n", pos - 1)`.  JS clamps a negative fromIndex to
0, so for `pos = 0` a newline sitting at index 0 is still found. -/
def jsLastIndexOfNlBefore (buf : List Char) (pos : Nat) : Int :=
  lastNlIdx (buf.take (max pos 1))

/-- JS `s.replace(/\r\n?|\n/g, "\n")`: newline normalization used by paste. -/
def normalizeNl : List Char → List Char
  | [] => []
  | '\r' :: '\n' :: rest => '\n' :: normalizeNl rest
  | '\r' :: rest => '\n' :: normalizeNl rest
  | '\n' :: rest => '\n' :: normalizeNl rest
  | c :: rest => c :: normalizeNl rest

/-- The JS whitespace class used by `String.prototype.trim`. -/
def jsIsWhite (c : Char) : Bool :=
  c.toNat ∈ [0x09, 0x0A, 0x0B, 0x0C, 0x0D, 0x20, 0xA0, 0x1680, 0x2000, 0x2001,
    0x2002, 0x2003, 0x2004, 0x2005, 0x2006, 0x2007, 0x2008, 0x2009, 0x200A,
    0x2028, 0x2029, 0x202F, 0x205F, 0x3000, 0xFEFF]

/-- JS `s.trim()`. -/
def jsTrim (l : List Char) : List Char :=
  ((l.dropWhile jsIsWhite).reverse.dropWhile jsIsWhite).reverse

/-- `insertAt buf k t`: JS `buf.slice(0, k) + t + buf.slice(k)`. -/
def insertAt (buf : List Char) (k : Nat) (t : List Char) : List Char :=
  buf.take k ++ t ++ buf.drop k

/-! ### Terminal geometry (src/index.ts, `rowOf` / `colOf` / `totalRows`)

The JS functions split the buffer at newlines and add the visible prompt
length to the first logical line. -/

/-- Lengths of the logical lines, with the prompt length added to the first. -/
def lineLens (promptLen : Nat) : List (List Char) → List Nat
  | [] => []
  | h :: t => (promptLen + h.length) :: t.map List.length

/-- Rows occupied by one full logical line: `len === 0 ? 1 : Math.ceil(len/cols)`. -/
def fullRows (cols len : Nat) : Nat := if len = 0 then 1 else ceilDiv len cols

/-- The row-accumulation loop of `rowOf`: full lines contribute
`fullRows`, the final (cursor) line contributes `ceil(len/cols) - 1`
(deferred wrap), or 0 when empty. -/
def rowOfLens (cols : Nat) : List Nat → Nat
  | [] => 0
  | [l] => if 0 < l then ceilDiv l cols - 1 else 0
  | l :: l' :: t => fullRows cols l + rowOfLens cols (l' :: t)

/-- `rowOf(pos)` from src/index.ts: 0-based terminal row of a buffer offset. -/
def rowOf (buf : List Char) (promptLen cols pos : Nat) : Nat :=
  rowOfLens cols (lineLens promptLen ((buf.take pos).splitOn '\n'))

/-- `totalRows()` from src/index.ts: rows occupied by prompt + buffer. -/
def totalRows (buf : List Char) (promptLen cols : Nat) : Nat :=
  ((lineLens promptLen (buf.splitOn '\n')).map (fullRows cols)).sum

/-- `colOf(pos)` from src/index.ts, including the JS `lastIndexOf` clamp and
the JS truncated `%` (both matter when `linePos` is negative). -/
def colOf (buf : List Char) (promptLen cols : Nat) (pos : Nat) : Int :=
  let lastNl : Int := jsLastIndexOfNlBefore buf pos
  let lineStart : Int := lastNl + 1
  let off : Int := if lineStart = 0 then (promptLen : Int) else 0
  let linePos : Int := off + ((pos : Int) - lineStart)
  if 0 < linePos ∧ linePos.tmod (cols : Int) = 0 then (cols : Int)
  else linePos.tmod (cols : Int)

/-! ### The raw-mode multiline editor (src/index.ts, `readMultiline`)

State of one editing session.  Terminal writes are I/O and not modelled;
`screenRow` is the tracked cursor row updated by `redraw`. -/

/-- Result of the editor promise: still pending, rejected as cancelled, or
resolved with the submitted text. -/
inductive Outcome
  | pending
  | cancelled
  | submitted (text : List Char)
deriving DecidableEq

structure EditorState where
  buf : List Char
  cursor : Nat
  pasting : Bool
  done : Bool
  outcome : Outcome
  screenRow : Nat
deriving DecidableEq

def initState : EditorState := ⟨[], 0, false, false, .pending, 0⟩

/-- `redraw()`: repaints and repositions the cursor; the only tracked-state
effect is `screenRow = rowOf(cursor)`. -/
def redraw (pl cols : Nat) (st : EditorState) : EditorState :=
  { st with screenRow := rowOf st.buf pl cols st.cursor }

/-- `finish(cancelled)`: resolves the promise with `buf.trim()` or rejects. -/
def finish (cancelled : Bool) (st : EditorState) : EditorState :=
  if st.done then st
  else { st with done := true,
                 outcome := if cancelled then .cancelled else .submitted (jsTrim st.buf) }

/-- First loop of `wordLeft`: `while (p > 0 && buf[p-1] === " ") p--`. -/
def skipSpacesBack (buf : List Char) : Nat → Nat
  | 0 => 0
  | p + 1 => if buf.get? p = some ' ' then skipSpacesBack buf p else p + 1

/-- Second loop of `wordLeft`: `while (p > 0 && buf[p-1] !== " ") p--`.
Note a newline is not a space, so this loop runs across newlines. -/
def skipWordBack (buf : List Char) : Nat → Nat
  | 0 => 0
  | p + 1 => if buf.get? p ≠ some ' ' then skipWordBack buf p else p + 1

/-- `wordLeft()` from src/index.ts. -/
def wordLeft (buf : List Char) (cursor : Nat) : Nat :=
  skipWordBack buf (skipSpacesBack buf cursor)

/-- First loop of `wordRight` over the suffix `buf.drop p`:
`while (p < buf.length && buf[p] === " ") p++`. -/
def skipSpacesFwdAux : List Char → Nat → Nat
  | [], p => p
  | c :: rest, p => if c = ' ' then skipSpacesFwdAux rest (p + 1) else p

/-- Second loop of `wordRight` over the suffix `buf.drop p`. -/
def skipWordFwdAux : List Char → Nat → Nat
  | c :: rest, p => if c ≠ ' ' then skipWordFwdAux rest (p + 1) else p
  | [], p => p

/-- `wordRight()` from src/index.ts. -/
def wordRight (buf : List Char) (cursor : Nat) : Nat :=
  let q := skipSpacesFwdAux (buf.drop cursor) cursor
  skipWordFwdAux (buf.drop q) q

/-- `deleteWordBack()` (Ctrl+W) as a pure buffer/cursor transformation:
`buf = buf.slice(0, to) + buf.slice(cursor); cursor = to`. -/
def deleteWordBack (buf : List Char) (cursor : Nat) : List Char × Nat :=
  let t := wordLeft buf cursor
  if t = cursor then (buf, cursor) else (buf.take t ++ buf.drop cursor, t)

/-- Insert text at the cursor and redraw (used for typed chars, Alt+Enter). -/
def insertText (pl cols : Nat) (st : EditorState) (t : List Char) : EditorState :=
  redraw pl cols
    { st with buf := insertAt st.buf st.cursor t, cursor := st.cursor + t.length }

/-- Backspace: guarded by `cursor > 0`. -/
def doBackspace (pl cols : Nat) (st : EditorState) : EditorState :=
  if 0 < st.cursor then
    redraw pl cols
      { st with buf := st.buf.take (st.cursor - 1) ++ st.buf.drop st.cursor,
                cursor := st.cursor - 1 }
  else st

/-- `killToEnd()` (Ctrl+K): `buf = buf.slice(0, cursor)`. -/
def doKillToEnd (pl cols : Nat) (st : EditorState) : EditorState :=
  redraw pl cols { st with buf := st.buf.take st.cursor }

/-- Ctrl+W on the state; redraws only when something was deleted. -/
def doDeleteWordBack (pl cols : Nat) (st : EditorState) : EditorState :=
  if wordLeft st.buf st.cursor = st.cursor then st
  else
    let r := deleteWordBack st.buf st.cursor
    redraw pl cols { st with buf := r.1, cursor := r.2 }

/-- Delete-forward (`CSI 3~`): guarded by `cursor < buf.length`. -/
def doDeleteForward (pl cols : Nat) (st : EditorState) : EditorState :=
  if st.cursor < st.buf.length then
    redraw pl cols { st with buf := st.buf.take st.cursor ++ st.buf.drop (st.cursor + 1) }
  else st

/-- CSI parameter bytes: the JS regex `/[0-9;]/`. -/
def isCsiParamChar (c : Char) : Bool := c.isDigit || c = ';'

/-- JS `parseInt` on an all-digit string; `none` models `NaN` for `""`. -/
def jsParseIntDigits? (l : List Char) : Option Nat :=
  if l = [] then none else some (l.foldl (fun a c => a * 10 + (c.toNat - 48)) 0)

/-- `parts = params.split(";")` of a CSI parameter string. -/
def csiParts (params : List Char) : List (List Char) := params.splitOn ';'

/-- `ctrl = (parts.length > 1 ? parseInt(parts[1]) : 0) === 5`; `parseInt("")`
is `NaN`, which is never `=== 5`. -/
def csiCtrl (params : List Char) : Bool :=
  decide ((if 1 < (csiParts params).length
           then jsParseIntDigits? ((csiParts params).getD 1 [])
           else some 0) = some 5)

/-- The `switch (final)` dispatch of `handleCSI`. -/
def csiApply (pl cols : Nat) (st : EditorState) (final? : Option Char) (ctrl : Bool)
    (code : List Char) : EditorState :=
  match final? with
  | some 'D' =>
    if ctrl then redraw pl cols { st with cursor := wordLeft st.buf st.cursor }
    else if 0 < st.cursor then redraw pl cols { st with cursor := st.cursor - 1 }
    else st
  | some 'C' =>
    if ctrl then redraw pl cols { st with cursor := wordRight st.buf st.cursor }
    else if st.cursor < st.buf.length then
      redraw pl cols { st with cursor := st.cursor + 1 }
    else st
  | some 'H' => redraw pl cols { st with cursor := 0 }
  | some 'F' => redraw pl cols { st with cursor := st.buf.length }
  | some '~' => if code = ['3'] then doDeleteForward pl cols st else st
  | _ => st

/-- `handleCSI(chunk, start)` from src/index.ts, given the characters after
the ESC byte.  Returns the new state and the number of characters consumed
after the ESC (the JS function returns the new index). -/
def handleCSI (pl cols : Nat) (st : EditorState) (rest : List Char) : EditorState × Nat :=
  match rest with
  | [] => (st, 0)
  | c :: r =>
    if c ≠ '[' then (st, 1)
    else
      (csiApply pl cols st ((r.drop (r.takeWhile isCsiParamChar).length).head?)
         (csiCtrl (r.takeWhile isCsiParamChar))
         ((csiParts (r.takeWhile isCsiParamChar)).headD []),
       1 + (r.takeWhile isCsiParamChar).length + 1)

/-- The per-character loop of `onData` over a chunk that contains no paste
start marker (src/index.ts lines 393-424), with a fuel argument that makes
the recursion structural; `fuel ≥ chunk.length` is always sufficient since
every step consumes at least one character. -/
def procChunkF (pl cols : Nat) : Nat → EditorState → List Char → EditorState
  | _, st, [] => st
  | 0, st, _ :: _ => st
  | f + 1, st, c :: rest =>
    if st.done then st
    else if c = '\x03' then finish true st
    else if c = '\x0d' ∨ c = '\x0a' then finish false st
    else if c = '\x17' then procChunkF pl cols f (doDeleteWordBack pl cols st) rest
    else if c = '\x0b' then procChunkF pl cols f (doKillToEnd pl cols st) rest
    else if c = '\x7f' ∨ c = '\x08' then procChunkF pl cols f (doBackspace pl cols st) rest
    else if c = '\x1b' then
      if rest.head? = some '\x0d' then
        procChunkF pl cols f (insertText pl cols st ['\n']) rest.tail
      else
        procChunkF pl cols f (handleCSI pl cols st rest).1
          (rest.drop (handleCSI pl cols st rest).2)
    else if c = '\x01' then procChunkF pl cols f (redraw pl cols { st with cursor := 0 }) rest
    else if c = '\x05' then
      procChunkF pl cols f (redraw pl cols { st with cursor := st.buf.length }) rest
    else if 0x20 ≤ c.toNat then procChunkF pl cols f (insertText pl cols st [c]) rest
    else procChunkF pl cols f st rest

/-- The chunk loop at its sufficient fuel. -/
def procChunk (pl cols : Nat) (st : EditorState) (l : List Char) : EditorState :=
  procChunkF pl cols l.length st l

def pasteStartMarker : List Char := "\x1b[200~".toList

def pasteEndMarker : List Char := "\x1b[201~".toList

/-- `onData(data)` from src/index.ts: the outer `while (s.length > 0 && !done)`
loop with the stateful bracketed-paste handling, fueled structurally;
every loop iteration consumes at least one character of `s`. -/
def onDataF (pl cols : Nat) : Nat → EditorState → List Char → EditorState
  | 0, st, _ => st
  | f + 1, st, s =>
    if s = [] ∨ st.done then st
    else if st.pasting then
      match indexOfSub? pasteEndMarker s with
      | some e =>
        onDataF pl cols f
          (redraw pl cols
            { st with buf := insertAt st.buf st.cursor (normalizeNl (s.take e)),
                      cursor := st.cursor + (normalizeNl (s.take e)).length,
                      pasting := false })
          (s.drop (e + 6))
      | none =>
        redraw pl cols
          { st with buf := insertAt st.buf st.cursor (normalizeNl s),
                    cursor := st.cursor + (normalizeNl s).length }
    else
      match indexOfSub? pasteStartMarker s with
      | some ps =>
        if (procChunk pl cols st (s.take ps)).done then procChunk pl cols st (s.take ps)
        else
          onDataF pl cols f
            { procChunk pl cols st (s.take ps) with pasting := true }
            (s.drop (ps + 6))
      | none => procChunk pl cols st s

/-- The data handler at its sufficient fuel. -/
def onData (pl cols : Nat) (st : EditorState) (s : List Char) : EditorState :=
  onDataF pl cols s.length st s

/-- Delivery of a sequence of raw input chunks to the editor. -/
def processChunks (pl cols : Nat) (st : EditorState) (chunks : List (List Char)) : EditorState :=
  chunks.foldl (onData pl cols) st

/-- The cursor-range invariant of the buffer model: `cursor ∈ [0, len]`
(the lower bound is inherent to `Nat`; every JS decrement is guarded). -/
def Inv (st : EditorState) : Prop := st.cursor ≤ st.buf.length

/-! ### ANSI-aware slicing (src/diff-view.ts, `stripAnsi` / `sliceSyntax`) -/

/-- One attempted match of the SGR tail `'[' [0-9;]* 'm'` after an ESC, as in
the regex `/\x1b\[[0-9;]*m/`; returns the remainder on success. -/
def matchSgr : List Char → Option (List Char)
  | [] => none
  | c :: r =>
    if c = '[' then
      match r.dropWhile isCsiParamChar with
      | m :: rest => if m = 'm' then some rest else none
      | [] => none
    else none

/-- `stripAnsi` (the global regex replace), fueled; `fuel ≥ length` always
suffices since every step consumes at least one character. -/
def stripAnsiF : Nat → List Char → List Char
  | 0, _ => []
  | f + 1, [] => []
  | f + 1, c :: rest =>
    if c = '\x1b' then
      match matchSgr rest with
      | some rest' => stripAnsiF f rest'
      | none => c :: stripAnsiF f rest
    else c :: stripAnsiF f rest

/-- `stripAnsi(s)` from src/diff-view.ts: `s.replace(/\x1b\[[0-9;]*m/g, "")`. -/
def stripAnsi (l : List Char) : List Char := stripAnsiF l.length l

/-- `s.indexOf("m", ...)` relative to a start position: first index of `'m'`. -/
def idxOfM? : List Char → Option Nat
  | [] => none
  | c :: rest => if c = 'm' then some 0 else (idxOfM? rest).map (· + 1)

/-- The `while` loop of `sliceSyntax`, fueled.  At an ESC the slice keeps the
bytes up to and including the next `'m'` (when the position is inside the
requested range) without counting them as plain characters. -/
def sliceSyntaxF (s e : Nat) : Nat → List Char → Nat → List Char
  | 0, _, _ => []
  | f + 1, l, p =>
    if e ≤ p then []
    else
      match l with
      | [] => []
      | c :: rest =>
        if c = '\x1b' then
          match idxOfM? rest with
          | some j =>
            (if s ≤ p then c :: rest.take (j + 1) else []) ++
              sliceSyntaxF s e f (rest.drop (j + 1)) p
          | none => (if s ≤ p then [c] else []) ++ sliceSyntaxF s e f rest (p + 1)
        else (if s ≤ p then [c] else []) ++ sliceSyntaxF s e f rest (p + 1)

/-- `sliceSyntax(syntaxStr, start, end)` from src/diff-view.ts. -/
def sliceSyntax (l : List Char) (s e : Nat) : List Char := sliceSyntaxF s e l.length l 0

/-- JS `l.slice(a, b)` for `0 ≤ a ≤ b ≤ l.length`. -/
def jsSlice (l : List Char) (a b : Nat) : List Char := (l.take b).drop a

/-- A colorized string whose embedded escape sequences are all SGR color
codes `ESC '[' [0-9;]* 'm'` (the hypothesis of C9). -/
inductive SgrColored : List Char → Prop
  | nil : SgrColored []
  | plain (c : Char) (rest : List Char) (h : c ≠ '\x1b') (ih : SgrColored rest) :
      SgrColored (c :: rest)
  | sgr (params rest : List Char) (h : ∀ c ∈ params, isCsiParamChar c)
      (ih : SgrColored rest) :
      SgrColored ('\x1b' :: '[' :: (params ++ 'm' :: rest))

/-! ### The diff renderer (src/diff-view.ts, `renderDiff`)

The external diff-match-patch library supplies the line- and character-level
minimal edit scripts, and cli-highlight supplies syntax colors; both are
external collaborators modelled from the spec (§4.5-§4.7).  Everything else
below is translated from src/diff-view.ts. -/

def ansiWHITE : List Char := "\x1b[38;2;255;255;255m".toList
def ansiDIM : List Char := "\x1b[2m".toList
def ansiCYAN : List Char := "\x1b[36m".toList
def ansiRESET : List Char := "\x1b[0m".toList
def ansiBgRed : List Char := "\x1b[48;2;55;20;20m".toList
def ansiBgGreen : List Char := "\x1b[48;2;20;45;20m".toList
def ansiBgRedHl : List Char := "\x1b[48;2;100;35;35m".toList
def ansiBgGreenHl : List Char := "\x1b[48;2;35;85;35m".toList

def CONTEXT_LINES : Nat := 3
def MAX_OUTPUT_LINES : Nat := 80

/-- `patchResets(text, bg)`: `text.replace(/\x1b\[0m/g, "\x1b[0m" + bg)`,
fueled (every step consumes at least one character). -/
def patchResetsF (bg : List Char) : Nat → List Char → List Char
  | 0, _ => []
  | _ + 1, [] => []
  | f + 1, c :: rest =>
    if leadsWith ansiRESET (c :: rest) then
      ansiRESET ++ bg ++ patchResetsF bg f ((c :: rest).drop 4)
    else c :: patchResetsF bg f rest

def patchResets (text bg : List Char) : List Char := patchResetsF bg text.length text

/-- Modelled from the spec (§4.5): the minimal-edit-script cost (insertions
plus deletions) of the external diff library, fueled for computability. -/
def diffCostF [DecidableEq α] : Nat → List α → List α → Nat
  | _, [], b => b.length
  | _, a, [] => a.length
  | 0, _ :: _, _ :: _ => 0
  | f + 1, x :: xs, y :: ys =>
    if x = y then diffCostF f xs ys
    else 1 + min (diffCostF f xs (y :: ys)) (diffCostF f (x :: xs) ys)

/-- Modelled from the spec (§4.5): a standard minimal-edit-script diff over
atomic tokens, one `(op, token)` entry per token. -/
def rawDiffF [DecidableEq α] : Nat → List α → List α → List (Int × α)
  | _, [], b => b.map fun t => (1, t)
  | _, a, [] => a.map fun t => (-1, t)
  | 0, _ :: _, _ :: _ => []
  | f + 1, x :: xs, y :: ys =>
    if x = y then (0, x) :: rawDiffF f xs ys
    else if diffCostF f xs (y :: ys) ≤ diffCostF f (x :: xs) ys then
      (-1, x) :: rawDiffF f xs (y :: ys)
    else (1, y) :: rawDiffF f (x :: xs) ys

def rawDiff [DecidableEq α] (a b : List α) : List (Int × α) :=
  rawDiffF (a.length + b.length) a b

/-- Leading run of equal tokens of a per-token diff. -/
def takeEquals [DecidableEq α] : List (Int × α) → List α × List (Int × α)
  | [] => ([], [])
  | (op, t) :: rest =>
    if op = 0 then
      let p := takeEquals rest
      (t :: p.1, p.2)
    else ([], (op, t) :: rest)

/-- Leading run of changed tokens, separated into deletions and insertions. -/
def takeChanges [DecidableEq α] : List (Int × α) → List α × List α × List (Int × α)
  | [] => ([], [], [])
  | (op, t) :: rest =>
    if op = 0 then ([], [], (op, t) :: rest)
    else
      let p := takeChanges rest
      if op = -1 then (t :: p.1, p.2.1, p.2.2) else (p.1, t :: p.2.1, p.2.2)

/-- Modelled from the spec (§4.5): merge the per-token diff into runs, each
changed region listing its removed block before its added block. -/
def groupDiffsF [DecidableEq α] : Nat → List (Int × α) → List (Int × List α)
  | 0, _ => []
  | _ + 1, [] => []
  | f + 1, (op, t) :: rest =>
    if op = 0 then
      let p := takeEquals ((op, t) :: rest)
      (0, p.1) :: groupDiffsF f p.2
    else
      let p := takeChanges ((op, t) :: rest)
      (if p.1 = [] then [] else [(-1, p.1)]) ++
      (if p.2.1 = [] then [] else [(1, p.2.1)]) ++ groupDiffsF f p.2.2

def groupDiffs [DecidableEq α] (l : List (Int × α)) : List (Int × List α) :=
  groupDiffsF l.length l

/-- Tokenization of `diff_linesToChars_`: each line keeps its trailing
newline; a final segment without `\n` is its own token; empty text has no
tokens. -/
def splitKeepNlAcc (acc : List Char) : List Char → List (List Char)
  | [] => if acc = [] then [] else [acc.reverse]
  | c :: rest =>
    if c = '\n' then (acc.reverse ++ ['\n']) :: splitKeepNlAcc [] rest
    else splitKeepNlAcc (c :: acc) rest

def lineTokens (t : List Char) : List (List Char) := splitKeepNlAcc [] t

/-- Modelled from the spec (§4.5): the line-level diff of `renderDiff`
(`diff_linesToChars_` + `diff_main` + `diff_charsToLines_`), including the
library's equal-inputs fast path. -/
def lineDiffs (orig mod : List Char) : List (Int × List Char) :=
  let ta := lineTokens orig
  let tb := lineTokens mod
  if ta = tb then (if ta = [] then [] else [(0, ta.flatten)])
  else (groupDiffs (rawDiff ta tb)).map fun g => (g.1, g.2.flatten)

/-- Modelled from the spec (§4.6): the character-level diff used for word
highlighting inside a paired change block; the semantic cleanup that merges
short unchanged runs is not modelled (no claim depends on span granularity). -/
def charDiffs (a b : List Char) : List (Int × List Char) :=
  if a = b then (if a = [] then [] else [(0, a)])
  else groupDiffs (rawDiff a b)

/-- `syntaxHighlight` from src/diff-view.ts.  Modelled from the spec (§4.7):
the external cli-highlight call is modelled by its guaranteed fallback —
uncolored text — which is also the verbatim code path for extension-less
paths; the result is the list of lines. -/
def syntaxHighlight (text fp : List Char) : List (List Char) := text.splitOn '\n'

/-- One step of `highlightInline`'s loop over the character diff. -/
def hlStep (oldSynJ newSynJ : List Char) (st : Nat × Nat × List Char × List Char)
    (d : Int × List Char) : Nat × Nat × List Char × List Char :=
  if d.1 = 0 then
    (st.1 + d.2.length, st.2.1 + d.2.length,
     st.2.2.1 ++ sliceSyntax oldSynJ st.1 (st.1 + d.2.length),
     st.2.2.2 ++ sliceSyntax newSynJ st.2.1 (st.2.1 + d.2.length))
  else if d.1 = -1 then
    (st.1 + d.2.length, st.2.1,
     st.2.2.1 ++ ansiBgRedHl ++
       patchResets (sliceSyntax oldSynJ st.1 (st.1 + d.2.length)) ansiBgRedHl ++
       ansiRESET ++ ansiBgRed,
     st.2.2.2)
  else
    (st.1, st.2.1 + d.2.length,
     st.2.2.1,
     st.2.2.2 ++ ansiBgGreenHl ++
       patchResets (sliceSyntax newSynJ st.2.1 (st.2.1 + d.2.length)) ansiBgGreenHl ++
       ansiRESET ++ ansiBgGreen)

/-- `highlightInline` from src/diff-view.ts. -/
def highlightInline (oldLines newLines oldSyn newSyn : List (List Char)) :
    List (List Char) × List (List Char) :=
  let oldText := List.intercalate ['\n'] oldLines
  let newText := List.intercalate ['\n'] newLines
  let diffs := charDiffs oldText newText
  let oldSynJ := List.intercalate ['\n'] oldSyn
  let newSynJ := List.intercalate ['\n'] newSyn
  let r := diffs.foldl (hlStep oldSynJ newSynJ) (0, 0, [], [])
  (r.2.2.1.splitOn '\n', r.2.2.2.splitOn '\n')

structure DiffLine where
  op : Int
  text : List Char
  origLine : Option Nat
  modLine : Option Nat
deriving DecidableEq

def dl0 : DiffLine := ⟨0, [], none, none⟩

/-- `text.endsWith("\n") ? text.slice(0,-1).split("\n") : text.split("\n")`. -/
def jsChunkLines (t : List Char) : List (List Char) :=
  if t.getLast? = some '\n' then t.dropLast.splitOn '\n' else t.splitOn '\n'

/-- The `while` loop of `renderDiff` that expands the `(op, text)` runs into
`DiffLine`s with line numbers, pairing a removal run followed by an addition
run for word-level highlighting (src/diff-view.ts lines 162-218). -/
def buildLines (origSyn modSyn : List (List Char)) :
    List (Int × List Char) → Nat → Nat → List DiffLine
  | [], _, _ => []
  | (op, text) :: rest, ol, ml =>
    if op = 0 then
      let chunk := jsChunkLines text
      ((List.range chunk.length).map fun j =>
        ⟨0, origSyn.getD (ol - 1 + j) (chunk.getD j []), some (ol + j), some (ml + j)⟩) ++
      buildLines origSyn modSyn rest (ol + chunk.length) (ml + chunk.length)
    else if op = -1 then
      match rest with
      | (op2, text2) :: rest2 =>
        if op2 = 1 then
          let oldText := if text.getLast? = some '\n' then text.dropLast else text
          let newTextClean := if text2.getLast? = some '\n' then text2.dropLast else text2
          let oldPlain := oldText.splitOn '\n'
          let newPlain := newTextClean.splitOn '\n'
          let oldSynL := (List.range oldPlain.length).map fun j => origSyn.getD (ol + j - 1) []
          let newSynL := (List.range newPlain.length).map fun j => modSyn.getD (ml + j - 1) []
          let hl := highlightInline oldPlain newPlain oldSynL newSynL
          ((List.range hl.1.length).map fun j => ⟨-1, hl.1.getD j [], some (ol + j), none⟩) ++
          ((List.range hl.2.length).map fun j => ⟨1, hl.2.getD j [], none, some (ml + j)⟩) ++
          buildLines origSyn modSyn rest2 (ol + hl.1.length) (ml + hl.2.length)
        else
          let chunk := jsChunkLines text
          ((List.range chunk.length).map fun j =>
            ⟨-1, origSyn.getD (ol - 1 + j) (chunk.getD j []), some (ol + j), none⟩) ++
          buildLines origSyn modSyn ((op2, text2) :: rest2) (ol + chunk.length) ml
      | [] =>
        let chunk := jsChunkLines text
        (List.range chunk.length).map fun j =>
          ⟨-1, origSyn.getD (ol - 1 + j) (chunk.getD j []), some (ol + j), none⟩
    else
      let chunk := jsChunkLines text
      ((List.range chunk.length).map fun j =>
        ⟨1, modSyn.getD (ml - 1 + j) (chunk.getD j []), none, some (ml + j)⟩) ++
      buildLines origSyn modSyn rest ol (ml + chunk.length)

/-- The `DiffLine` sequence of `renderDiff(orig, mod, fp)`. -/
def diffLinesOf (orig mod fp : List Char) : List DiffLine :=
  buildLines (syntaxHighlight orig fp) (syntaxHighlight mod fp) (lineDiffs orig mod) 1 1

def changedAt (L : List DiffLine) (i : Nat) : Bool := decide ((L.getD i dl0).op ≠ 0)

/-- Membership in the `visible` set: within `CONTEXT_LINES` of a changed
line, clipped to the array (src/diff-view.ts lines 228-233). -/
def visibleB (L : List DiffLine) (i : Nat) : Bool :=
  decide (i < L.length) &&
  (List.range L.length).any fun c =>
    changedAt L c && decide (c ≤ i + CONTEXT_LINES) && decide (i ≤ c + CONTEXT_LINES)

def natDigitsF : Nat → Nat → List Char
  | 0, _ => []
  | f + 1, n =>
    if n < 10 then [Char.ofNat (48 + n)]
    else natDigitsF f (n / 10) ++ [Char.ofNat (48 + n % 10)]

/-- Decimal digits of a natural number, as JS `String(n)`. -/
def natDigits (n : Nat) : List Char := natDigitsF (n + 1) n

/-- JS `String(ln ?? "")`. -/
def optNatStr : Option Nat → List Char
  | none => []
  | some n => natDigits n

/-- JS `.padStart(4)`. -/
def padLeft4 (l : List Char) : List Char := List.replicate (4 - l.length) ' ' ++ l

/-- One rendered line of the diff (src/diff-view.ts lines 248-258). -/
def renderLine (dl : DiffLine) : List Char :=
  let ln := if dl.op = 1 then dl.modLine else dl.origLine
  let pad := padLeft4 (optNatStr ln)
  if dl.op = -1 then
    ansiBgRed ++ "\x1b[38;2;180;80;80m".toList ++ pad ++ " -".toList ++ ansiRESET ++
      ansiBgRed ++ ansiWHITE ++ patchResets dl.text (ansiBgRed ++ ansiWHITE) ++
      ansiRESET ++ "\n".toList
  else if dl.op = 1 then
    ansiBgGreen ++ "\x1b[38;2;80;160;80m".toList ++ pad ++ " +".toList ++ ansiRESET ++
      ansiBgGreen ++ ansiWHITE ++ patchResets dl.text (ansiBgGreen ++ ansiWHITE) ++
      ansiRESET ++ "\n".toList
  else
    ansiDIM ++ pad ++ "  ".toList ++ ansiRESET ++ ansiWHITE ++ dl.text ++
      ansiRESET ++ "\n".toList

def diffHeader (fp : List Char) : List Char :=
  ansiCYAN ++ "── ".toList ++ fp ++ " ──".toList ++ ansiRESET ++ "\n".toList

def gapMarker : List Char := ansiDIM ++ "  ···".toList ++ ansiRESET ++ "\n".toList

def hiddenMarker (n : Nat) : List Char :=
  ansiDIM ++ "  + ".toList ++ natDigits n ++ " more lines".toList ++ ansiRESET ++ "\n".toList

/-- The capped render loop of `renderDiff` (src/diff-view.ts lines 240-260),
fueled over the remaining indices; returns the parts pushed, the final
`outputLines` count, and the final `lastIdx`. -/
def renderLoopF (L : List DiffLine) (vis : Nat → Bool) :
    Nat → Nat → Nat → Int → List (List Char) × Nat × Int
  | 0, _, outLines, lastIdx => ([], outLines, lastIdx)
  | f + 1, idx, outLines, lastIdx =>
    if idx < L.length ∧ outLines < MAX_OUTPUT_LINES then
      if vis idx then
        let gap : Bool := decide (lastIdx + 1 < (idx : Int))
        let o1 := outLines + (if gap then 1 else 0)
        let r := renderLoopF L vis f (idx + 1) (o1 + 1) (idx : Int)
        ((if gap then [gapMarker] else []) ++ [renderLine (L.getD idx dl0)] ++ r.1, r.2)
      else renderLoopF L vis f (idx + 1) outLines lastIdx
    else ([], outLines, lastIdx)

/-- `renderDiff(originalContent, modifiedContent, filePath)` from
src/diff-view.ts. -/
def renderDiff (orig mod fp : List Char) : List Char :=
  let L := diffLinesOf orig mod fp
  if (List.range L.length).filter (changedAt L) = [] then []
  else
    let r := renderLoopF L (visibleB L) L.length 0 1 (-2)
    let remaining :=
      ((List.range L.length).filter fun i => visibleB L i && decide (r.2.2 < (i : Int))).length
    diffHeader fp ++ r.1.flatten ++
      (if MAX_OUTPUT_LINES ≤ r.2.1 ∧ 0 < remaining then hiddenMarker remaining else [])

/-- The sorted list of visible indices. -/
def visList (L : List DiffLine) : List Nat := (List.range L.length).filter (visibleB L)

/-- Reference rendering of a given list of visible indices, following the
words of the spec (§4.8): each visible line, preceded by a collapse marker
when it does not directly follow the previous one. -/
def partsFor (L : List DiffLine) : List Nat → Int → List (List Char)
  | [], _ => []
  | i :: rest, last =>
    (if decide (last + 1 < (i : Int)) then [gapMarker] else []) ++
    [renderLine (L.getD i dl0)] ++ partsFor L rest (i : Int)

/-- Output lines contributed by a list of visible indices (line plus its
possible collapse marker). -/
def countFor : List Nat → Int → Nat
  | [], _ => 0
  | i :: rest, last => (if decide (last + 1 < (i : Int)) then 2 else 1) + countFor rest i

/-- Total lines of the uncapped render: header plus every visible line and
collapse marker. -/
def uncappedTotal (L : List DiffLine) : Nat := 1 + countFor (visList L) (-2)

/-- Last element as an `Int`, or the default. -/
def lastOfD (l : List Nat) (d : Int) : Int :=
  match l.getLast? with
  | some x => (x : Int)
  | none => d

/-- Visible indices from position `idx` on. -/
def visFrom (L : List DiffLine) (idx : Nat) : List Nat :=
  ((List.range L.length).drop idx).filter (visibleB L)

/-! ## Theorems -/

/-- Each nonempty line-length list: total full rows exceed the cursor row of
the final offset by exactly one. -/
theorem rowOfLens_add_one (cols : Nat) (hc : 1 ≤ cols) :
    ∀ L : List Nat, L ≠ [] → (L.map (fullRows cols)).sum = rowOfLens cols L + 1 := by
  intro L
  induction L with
  | nil => intro h; exact absurd rfl h
  | cons l t ih =>
    intro _
    cases t with
    | nil =>
      simp only [List.map_cons, List.map_nil, List.sum_cons, List.sum_nil, rowOfLens, fullRows]
      by_cases h0 : l = 0
      · simp [h0]
      · have h1 : 1 ≤ ceilDiv l cols := by
          unfold ceilDiv
          rw [Nat.le_div_iff_mul_le (by omega : 0 < cols)]
          omega
        have hl : 0 < l := Nat.pos_of_ne_zero h0
        rw [if_neg h0, if_pos hl]
        omega
    | cons l' t' =>
      have h2 := ih (by simp)
      simp only [List.map_cons, List.sum_cons, rowOfLens] at h2 ⊢
      omega

/-- C1: for every buffer, prompt length and width `cols ≥ 1`, the row of the
end-of-buffer offset is exactly `totalRows - 1` (the load-bearing redraw
invariant of src/index.ts). -/
theorem rowOf_end_eq_totalRows_sub_one (buf : List Char) (promptLen cols : Nat)
    (hc : 1 ≤ cols) :
    rowOf buf promptLen cols buf.length = totalRows buf promptLen cols - 1 := by
  unfold rowOf totalRows
  rw [List.take_length]
  have hne : buf.splitOn '\n' ≠ [] := by
    unfold List.splitOn
    exact List.splitOnP_ne_nil _ buf
  have hne2 : lineLens promptLen (buf.splitOn '\n') ≠ [] := by
    cases h : buf.splitOn '\n' with
    | nil => exact absurd h hne
    | cons a t => simp [lineLens]
  rw [rowOfLens_add_one cols hc _ hne2]
  omega

/-- Witness for C1 at a concrete multiline buffer and width. -/
theorem rowOf_end_eq_totalRows_sub_one_witness :
    rowOf ("hello\nworld".toList) 6 4 (("hello\nworld".toList).length) =
      totalRows ("hello\nworld".toList) 6 4 - 1 :=
  rowOf_end_eq_totalRows_sub_one ("hello\nworld".toList) 6 4 (by decide)

theorem skipSpacesBack_le (buf : List Char) : ∀ p, skipSpacesBack buf p ≤ p := by
  intro p
  induction p with
  | zero => simp [skipSpacesBack]
  | succ q ih =>
    unfold skipSpacesBack
    split
    · omega
    · omega

theorem skipWordBack_le (buf : List Char) : ∀ p, skipWordBack buf p ≤ p := by
  intro p
  induction p with
  | zero => simp [skipWordBack]
  | succ q ih =>
    unfold skipWordBack
    split
    · omega
    · omega

theorem wordLeft_le (buf : List Char) (p : Nat) : wordLeft buf p ≤ p :=
  le_trans (skipWordBack_le buf _) (skipSpacesBack_le buf p)

/-- Every position skipped by the first `wordLeft` loop holds a space. -/
theorem skipSpacesBack_spec (buf : List Char) :
    ∀ p j, skipSpacesBack buf p ≤ j → j < p → buf.get? j = some ' ' := by
  intro p
  induction p with
  | zero => intro j h1 h2; omega
  | succ q ih =>
    intro j h1 h2
    unfold skipSpacesBack at h1
    by_cases hq : buf.get? q = some ' '
    · rw [if_pos hq] at h1
      by_cases hj : j < q
      · exact ih j h1 hj
      · have : j = q := by omega
        subst this; exact hq
    · rw [if_neg hq] at h1
      omega

/-- Every position skipped by the second `wordLeft` loop is a non-space. -/
theorem skipWordBack_spec (buf : List Char) :
    ∀ p j, skipWordBack buf p ≤ j → j < p → buf.get? j ≠ some ' ' := by
  intro p
  induction p with
  | zero => intro j h1 h2; omega
  | succ q ih =>
    intro j h1 h2
    unfold skipWordBack at h1
    by_cases hq : buf.get? q ≠ some ' '
    · rw [if_pos hq] at h1
      by_cases hj : j < q
      · exact ih j h1 hj
      · have : j = q := by omega
        subst this; exact hq
    · rw [if_neg hq] at h1
      omega

/-- The second `wordLeft` loop stops at 0 or just after a space. -/
theorem skipWordBack_maximal (buf : List Char) :
    ∀ p, skipWordBack buf p = 0 ∨ buf.get? (skipWordBack buf p - 1) = some ' ' := by
  intro p
  induction p with
  | zero => left; simp [skipWordBack]
  | succ q ih =>
    unfold skipWordBack
    by_cases hq : buf.get? q ≠ some ' '
    · rw [if_pos hq]; exact ih
    · rw [if_neg hq]
      right
      simpa using not_not.mp hq

/-- Closed form of the Ctrl+W transformation (the `to = cursor` fast path
coincides with the general formula). -/
theorem deleteWordBack_eq (buf : List Char) (cursor : Nat) :
    deleteWordBack buf cursor =
      (buf.take (wordLeft buf cursor) ++ buf.drop cursor, wordLeft buf cursor) := by
  have hdef : deleteWordBack buf cursor =
      if wordLeft buf cursor = cursor then (buf, cursor)
      else (buf.take (wordLeft buf cursor) ++ buf.drop cursor, wordLeft buf cursor) := rfl
  rw [hdef]
  split
  · rename_i heq
    rw [heq, List.take_append_drop]
  · rfl

/-- C6 fails as stated: with buffer `"ab\ncd"` and the cursor at the end,
Ctrl+W deletes across the newline all the way to offset 0 (the `wordLeft`
loop treats `'\n'` as a non-space), not merely back to the start of the
current line (which would leave `"ab\n"` with cursor 3). -/
theorem deleteWordBack_crosses_newline_cex :
    deleteWordBack ("ab\ncd".toList) 5 = ([], 0) ∧
      deleteWordBack ("ab\ncd".toList) 5 ≠ ("ab\n".toList, 3) := by
  constructor
  · decide
  · decide

/-- C6 (amended): Ctrl+W first skips spaces backward, then deletes the
previous maximal run of non-space characters, where a newline counts as a
non-space character (so the deletion may cross newlines into earlier lines);
the cursor is left at the deletion point, never below 0. -/
theorem deleteWordBack_spec (buf : List Char) (cursor : Nat)
    (hc : cursor ≤ buf.length) :
    deleteWordBack buf cursor =
      (buf.take (wordLeft buf cursor) ++ buf.drop cursor, wordLeft buf cursor) ∧
    wordLeft buf cursor ≤ skipSpacesBack buf cursor ∧
    skipSpacesBack buf cursor ≤ cursor ∧
    (∀ j, skipSpacesBack buf cursor ≤ j → j < cursor → buf.get? j = some ' ') ∧
    (∀ j, wordLeft buf cursor ≤ j → j < skipSpacesBack buf cursor →
      buf.get? j ≠ some ' ') ∧
    (wordLeft buf cursor = 0 ∨ buf.get? (wordLeft buf cursor - 1) = some ' ') :=
  ⟨deleteWordBack_eq buf cursor, skipWordBack_le buf _, skipSpacesBack_le buf _,
    skipSpacesBack_spec buf _, skipWordBack_spec buf _, skipWordBack_maximal buf _⟩

/-- Witness for C6 (amended) after a trailing space: the spaces are skipped,
then the word `"hi"` is deleted back to the preceding space. -/
theorem deleteWordBack_spec_witness :
    deleteWordBack ("a hi ".toList) 5 = ("a ".toList, 2) := by
  have h := deleteWordBack_spec ("a hi ".toList) 5 (by decide)
  exact h.1.trans (by decide)

/-- C10: pressing Enter in a live, non-pasting session resolves the editor
promise with the trimmed buffer `buf.trim()`; a buffer of only spaces and
newlines therefore resolves to the empty string. -/
theorem submit_resolves_trimmed (pl cols : Nat) (st : EditorState)
    (hdone : st.done = false) (hpaste : st.pasting = false) :
    (onData pl cols st ['\x0d']).outcome = .submitted (jsTrim st.buf) ∧
      ((∀ c ∈ st.buf, c = ' ' ∨ c = '\n') → jsTrim st.buf = []) := by
  constructor
  · obtain ⟨buf, cur, pas, don, out, sr⟩ := st
    simp only at hdone hpaste
    subst hdone hpaste
    rfl
  · intro hws
    unfold jsTrim
    have h1 : st.buf.dropWhile jsIsWhite = [] := by
      rw [List.dropWhile_eq_nil_iff]
      intro x hx
      rcases hws x hx with h | h <;> subst h <;> decide
    simp [h1]

/-- Witness for C10: a whitespace-only buffer submits the empty string. -/
theorem submit_resolves_trimmed_witness :
    (onData 6 80 ⟨" \n ".toList, 1, false, false, .pending, 0⟩ ['\x0d']).outcome =
      .submitted [] := by
  have h := submit_resolves_trimmed 6 80 ⟨" \n ".toList, 1, false, false, .pending, 0⟩ rfl rfl
  rw [h.1, h.2 (by decide)]

/-- C2 (code bug): with a buffer that starts with a newline, `colOf 0` is
`-1`, outside the claimed range `[0, cols]`.  The JS source computes
`buf.lastIndexOf("\n", -1)`, which clamps the fromIndex to 0 and finds the
newline at index 0, so `lineStart = 1` and `linePos = 0 - 1 = -1`; JS `%`
keeps the sign of the dividend, and `-1` is returned. -/
theorem colOf_negative_at_leading_newline :
    colOf ("\nx".toList) 6 80 0 = -1 ∧
      ¬ (0 ≤ colOf ("\nx".toList) 6 80 0 ∧ colOf ("\nx".toList) 6 80 0 ≤ 80) := by
  constructor
  · decide
  · decide

theorem insertAt_length (l : List Char) (k : Nat) (t : List Char) (h : k ≤ l.length) :
    (insertAt l k t).length = l.length + t.length := by
  simp [insertAt, List.length_append, List.length_take, List.length_drop]
  omega

theorem skipSpacesFwdAux_le : ∀ (l : List Char) (p : Nat), skipSpacesFwdAux l p ≤ p + l.length := by
  intro l
  induction l with
  | nil => intro p; simp [skipSpacesFwdAux]
  | cons c rest ih =>
    intro p
    unfold skipSpacesFwdAux
    split
    · have := ih (p + 1)
      simp only [List.length_cons]
      omega
    · simp

theorem skipWordFwdAux_le : ∀ (l : List Char) (p : Nat), skipWordFwdAux l p ≤ p + l.length := by
  intro l
  induction l with
  | nil => intro p; simp [skipWordFwdAux]
  | cons c rest ih =>
    intro p
    unfold skipWordFwdAux
    split
    · have := ih (p + 1)
      simp only [List.length_cons]
      omega
    · simp

theorem wordRight_le (buf : List Char) (cursor : Nat) (h : cursor ≤ buf.length) :
    wordRight buf cursor ≤ buf.length := by
  show skipWordFwdAux (buf.drop (skipSpacesFwdAux (buf.drop cursor) cursor))
      (skipSpacesFwdAux (buf.drop cursor) cursor) ≤ buf.length
  have h1 := skipSpacesFwdAux_le (buf.drop cursor) cursor
  rw [List.length_drop] at h1
  have h2 := skipWordFwdAux_le
    (buf.drop (skipSpacesFwdAux (buf.drop cursor) cursor))
    (skipSpacesFwdAux (buf.drop cursor) cursor)
  rw [List.length_drop] at h2
  omega

theorem Inv_finish (b : Bool) (st : EditorState) (h : Inv st) : Inv (finish b st) := by
  unfold finish
  split
  · exact h
  · exact h

theorem Inv_insertText (pl cols : Nat) (st : EditorState) (t : List Char) (h : Inv st) :
    Inv (insertText pl cols st t) := by
  unfold Inv insertText redraw at *
  simp only
  rw [insertAt_length st.buf st.cursor t h]
  omega

theorem Inv_doBackspace (pl cols : Nat) (st : EditorState) (h : Inv st) :
    Inv (doBackspace pl cols st) := by
  unfold Inv doBackspace redraw at *
  split
  · simp only [List.length_append, List.length_take, List.length_drop]
    omega
  · exact h

theorem Inv_doKillToEnd (pl cols : Nat) (st : EditorState) (h : Inv st) :
    Inv (doKillToEnd pl cols st) := by
  unfold Inv doKillToEnd redraw at *
  simp only [List.length_take]
  omega

theorem Inv_doDeleteWordBack (pl cols : Nat) (st : EditorState) (h : Inv st) :
    Inv (doDeleteWordBack pl cols st) := by
  unfold Inv doDeleteWordBack at *
  split
  · exact h
  · have ht := wordLeft_le st.buf st.cursor
    show (deleteWordBack st.buf st.cursor).2 ≤ (deleteWordBack st.buf st.cursor).1.length
    rw [deleteWordBack_eq]
    simp only [List.length_append, List.length_take, List.length_drop]
    omega

theorem Inv_doDeleteForward (pl cols : Nat) (st : EditorState) (h : Inv st) :
    Inv (doDeleteForward pl cols st) := by
  unfold Inv doDeleteForward redraw at *
  split
  · simp only [List.length_append, List.length_take, List.length_drop]
    omega
  · exact h

theorem Inv_csiApply (pl cols : Nat) (st : EditorState) (final? : Option Char)
    (ctrl : Bool) (code : List Char) (h : Inv st) :
    Inv (csiApply pl cols st final? ctrl code) := by
  unfold csiApply
  split
  · split
    · exact le_trans (wordLeft_le st.buf st.cursor) h
    · split
      · unfold Inv redraw at *
        simp only
        omega
      · exact h
  · split
    · exact wordRight_le st.buf st.cursor h
    · split
      · unfold Inv redraw at *
        simp only
        omega
      · exact h
  · unfold Inv redraw
    simp
  · unfold Inv redraw
    simp
  · split
    · exact Inv_doDeleteForward pl cols st h
    · exact h
  · exact h

theorem Inv_handleCSI (pl cols : Nat) (st : EditorState) (rest : List Char) (h : Inv st) :
    Inv (handleCSI pl cols st rest).1 := by
  unfold handleCSI
  cases rest with
  | nil => exact h
  | cons c r =>
    show Inv (if c ≠ '[' then (st, 1)
      else (csiApply pl cols st ((r.drop (r.takeWhile isCsiParamChar).length).head?)
          (csiCtrl (r.takeWhile isCsiParamChar))
          ((csiParts (r.takeWhile isCsiParamChar)).headD []),
        1 + (r.takeWhile isCsiParamChar).length + 1)).1
    by_cases hc : c ≠ '['
    · rw [if_pos hc]
      exact h
    · rw [if_neg hc]
      exact Inv_csiApply pl cols st _ _ _ h

/-- One-step unfolding of the chunk loop on a cons cell. -/
theorem procChunkF_cons (pl cols f : Nat) (st : EditorState) (c : Char) (rest : List Char) :
    procChunkF pl cols (f + 1) st (c :: rest) =
      (if st.done then st
      else if c = '\x03' then finish true st
      else if c = '\x0d' ∨ c = '\x0a' then finish false st
      else if c = '\x17' then procChunkF pl cols f (doDeleteWordBack pl cols st) rest
      else if c = '\x0b' then procChunkF pl cols f (doKillToEnd pl cols st) rest
      else if c = '\x7f' ∨ c = '\x08' then procChunkF pl cols f (doBackspace pl cols st) rest
      else if c = '\x1b' then
        if rest.head? = some '\x0d' then
          procChunkF pl cols f (insertText pl cols st ['\n']) rest.tail
        else
          procChunkF pl cols f (handleCSI pl cols st rest).1
            (rest.drop (handleCSI pl cols st rest).2)
      else if c = '\x01' then procChunkF pl cols f (redraw pl cols { st with cursor := 0 }) rest
      else if c = '\x05' then
        procChunkF pl cols f (redraw pl cols { st with cursor := st.buf.length }) rest
      else if 0x20 ≤ c.toNat then procChunkF pl cols f (insertText pl cols st [c]) rest
      else procChunkF pl cols f st rest) := rfl

theorem Inv_procChunkF (pl cols : Nat) :
    ∀ (f : Nat) (st : EditorState) (l : List Char), Inv st → Inv (procChunkF pl cols f st l) := by
  intro f
  induction f with
  | zero => intro st l h; cases l <;> exact h
  | succ f ih =>
    intro st l h
    cases l with
    | nil => exact h
    | cons c rest =>
      rw [procChunkF_cons]
      split
      · exact h
      · split
        · exact Inv_finish true st h
        · split
          · exact Inv_finish false st h
          · split
            · exact ih _ _ (Inv_doDeleteWordBack pl cols st h)
            · split
              · exact ih _ _ (Inv_doKillToEnd pl cols st h)
              · split
                · exact ih _ _ (Inv_doBackspace pl cols st h)
                · split
                  · split
                    · exact ih _ _ (Inv_insertText pl cols st ['\n'] h)
                    · exact ih _ _ (Inv_handleCSI pl cols st rest h)
                  · split
                    · exact ih _ _ (by unfold Inv redraw; simp)
                    · split
                      · exact ih _ _ (by unfold Inv redraw; simp)
                      · split
                        · exact ih _ _ (Inv_insertText pl cols st [c] h)
                        · exact ih _ _ h

theorem Inv_procChunk (pl cols : Nat) (st : EditorState) (l : List Char) (h : Inv st) :
    Inv (procChunk pl cols st l) :=
  Inv_procChunkF pl cols l.length st l h

theorem Inv_onDataF (pl cols : Nat) :
    ∀ (f : Nat) (st : EditorState) (s : List Char), Inv st → Inv (onDataF pl cols f st s) := by
  intro f
  induction f with
  | zero => intro st s h; exact h
  | succ f ih =>
    intro st s h
    unfold onDataF
    split
    · exact h
    · split
      · split
        · apply ih
          unfold Inv redraw at *
          simp only
          rw [insertAt_length st.buf st.cursor _ h]
          omega
        · unfold Inv redraw at *
          simp only
          rw [insertAt_length st.buf st.cursor _ h]
          omega
      · split
        · split
          · exact Inv_procChunk pl cols st _ h
          · exact ih _ _ (Inv_procChunk pl cols st _ h)
        · exact Inv_procChunk pl cols st _ h

/-- C5: starting from the empty buffer at cursor 0, after delivering any raw
input (covering character insertion, backspace, delete-forward, Ctrl+W,
Ctrl+K, char- and word-wise moves, Home/End, Alt+Enter and bracketed paste)
the cursor offset lies in `[0, buffer length]`. -/
theorem cursor_in_range_after_any_input (pl cols : Nat) (chunks : List (List Char)) :
    (processChunks pl cols initState chunks).cursor ≤
      (processChunks pl cols initState chunks).buf.length := by
  have main : ∀ (cs : List (List Char)) (st : EditorState), Inv st →
      Inv (processChunks pl cols st cs) := by
    intro cs
    induction cs with
    | nil => intro st h; exact h
    | cons a t ih =>
      intro st h
      show Inv (processChunks pl cols (onData pl cols st a) t)
      exact ih _ (Inv_onDataF pl cols a.length st a h)
  exact main chunks initState (by unfold Inv initState; simp)

theorem normalizeNl_rn (rest : List Char) :
    normalizeNl ('\r' :: '\n' :: rest) = '\n' :: normalizeNl rest := rfl

theorem normalizeNl_n (rest : List Char) :
    normalizeNl ('\n' :: rest) = '\n' :: normalizeNl rest := rfl

theorem normalizeNl_r (rest : List Char) (h : rest.head? ≠ some '\n') :
    normalizeNl ('\r' :: rest) = '\n' :: normalizeNl rest := by
  cases rest with
  | nil => rfl
  | cons x r =>
    have hx : x ≠ '\n' := by simp at h; exact h
    rw [normalizeNl.eq_def]
    split <;> try simp_all
    rename_i heq
    exact absurd heq.1.symm (by assumption)

theorem normalizeNl_other (c : Char) (rest : List Char) (h1 : c ≠ '\r') (h2 : c ≠ '\n') :
    normalizeNl (c :: rest) = c :: normalizeNl rest := by
  rw [normalizeNl.eq_def]
  split <;> simp_all
theorem normalizeNl_eq_self (l : List Char) (h : ∀ c ∈ l, c ≠ '\r' ∧ c ≠ '\n') :
    normalizeNl l = l := by
  induction l with
  | nil => rfl
  | cons c rest ih =>
    rw [normalizeNl_other c rest (h c (by simp)).1 (h c (by simp)).2]
    rw [ih (fun x hx => h x (by simp [hx]))]

theorem leadsWith_false_of_not_mem (pat l : List Char) (c : Char) (hc : pat.head? = some c)
    (h : c ∉ l) : leadsWith pat l = false := by
  cases pat with
  | nil => simp at hc
  | cons p ps =>
    cases l with
    | nil => rfl
    | cons x xs =>
      simp at hc
      subst hc
      have hpx : p ≠ x := fun hx => h (by simp [hx])
      simp [leadsWith, hpx]

theorem indexOfSub?_eq_none (pat l : List Char) (c : Char) (hc : pat.head? = some c)
    (h : c ∉ l) : indexOfSub? pat l = none := by
  induction l with
  | nil =>
    cases pat with
    | nil => simp at hc
    | cons p ps => simp [indexOfSub?]
  | cons x xs ih =>
    have hx : c ∉ xs := fun hm => h (by simp [hm])
    rw [indexOfSub?]
    rw [leadsWith_false_of_not_mem pat (x :: xs) c hc h]
    simp [ih hx]

theorem insertAt_insertAt (buf : List Char) (k : Nat) (a b : List Char) :
    insertAt (insertAt buf k a) (k + a.length) b = insertAt buf k (a ++ b) := by
  unfold insertAt
  by_cases hk : k ≤ buf.length
  · have hT : (buf.take k).length = k := by rw [List.length_take]; omega
    rw [List.append_assoc (buf.take k)]
    rw [List.take_append_eq_append_take, List.drop_append_eq_append_drop]
    rw [(List.take_of_length_le (show (buf.take k).length ≤ k + a.length by rw [hT]; omega) :
          (buf.take k).take (k + a.length) = buf.take k),
        (List.drop_of_length_le (show (buf.take k).length ≤ k + a.length by rw [hT]; omega) :
          (buf.take k).drop (k + a.length) = [])]
    rw [hT]
    have h2 : k + a.length - k = a.length := by omega
    rw [h2]
    rw [List.take_append_eq_append_take, List.drop_append_eq_append_drop]
    rw [(List.take_of_length_le (le_refl a.length) : a.take a.length = a),
        (List.drop_of_length_le (le_refl a.length) : a.drop a.length = [])]
    simp [List.append_assoc]
  · push_neg at hk
    have hbuf : buf.take k = buf := List.take_of_length_le (by omega)
    have hD : buf.drop k = [] := List.drop_of_length_le (by omega)
    rw [hbuf, hD]
    simp only [List.append_nil]
    rw [List.take_of_length_le (by simp; omega), List.drop_of_length_le (by simp; omega)]
    simp

theorem onData_nil (pl cols : Nat) (st : EditorState) : onData pl cols st [] = st := rfl

theorem onData_done (pl cols : Nat) (st : EditorState) (s : List Char) (h : st.done = true) :
    onData pl cols st s = st := by
  unfold onData
  cases s with
  | nil => rfl
  | cons c r =>
    rw [List.length_cons, onDataF]
    rw [if_pos (Or.inr h)]

theorem insertText_done (pl cols : Nat) (st : EditorState) (t : List Char) :
    (insertText pl cols st t).done = st.done := rfl

theorem insertText_pasting (pl cols : Nat) (st : EditorState) (t : List Char) :
    (insertText pl cols st t).pasting = st.pasting := rfl

theorem plain_step (pl cols : Nat) (st : EditorState) (c : Char) (rest : List Char) (f : Nat)
    (hc : 0x20 ≤ c.toNat ∧ c.toNat ≠ 0x7f) (hdone : st.done = false) :
    procChunkF pl cols (f + 1) st (c :: rest) =
      procChunkF pl cols f (insertText pl cols st [c]) rest := by
  have h03 : ¬(c = '\x03') := fun he => absurd hc.1 (by subst he; decide)
  have h0d : ¬(c = '\x0d' ∨ c = '\x0a') := by
    rintro (he | he) <;> exact absurd hc.1 (by subst he; decide)
  have h17 : ¬(c = '\x17') := fun he => absurd hc.1 (by subst he; decide)
  have h0b : ¬(c = '\x0b') := fun he => absurd hc.1 (by subst he; decide)
  have h7f : ¬(c = '\x7f' ∨ c = '\x08') := by
    rintro (he | he)
    · exact hc.2 (by subst he; rfl)
    · exact absurd hc.1 (by subst he; decide)
  have h1b : ¬(c = '\x1b') := fun he => absurd hc.1 (by subst he; decide)
  have h01 : ¬(c = '\x01') := fun he => absurd hc.1 (by subst he; decide)
  have h05 : ¬(c = '\x05') := fun he => absurd hc.1 (by subst he; decide)
  rw [procChunkF_cons]
  rw [if_neg (by simp [hdone]), if_neg h03, if_neg h0d, if_neg h17, if_neg h0b,
      if_neg h7f, if_neg h1b, if_neg h01, if_neg h05, if_pos hc.1]

theorem procChunk_plain_cons (pl cols : Nat) (st : EditorState) (c : Char) (rest : List Char)
    (hc : 0x20 ≤ c.toNat ∧ c.toNat ≠ 0x7f) (hdone : st.done = false) :
    procChunk pl cols st (c :: rest) = procChunk pl cols (insertText pl cols st [c]) rest := by
  unfold procChunk
  rw [List.length_cons, plain_step pl cols st c rest rest.length hc hdone]

theorem procChunk_plain_state (pl cols : Nat) :
    ∀ (a : List Char) (st : EditorState),
      (∀ c ∈ a, 0x20 ≤ c.toNat ∧ c.toNat ≠ 0x7f) → st.done = false →
      (procChunk pl cols st a).done = false ∧
      (procChunk pl cols st a).pasting = st.pasting := by
  intro a
  induction a with
  | nil => intro st _ hdone; exact ⟨hdone, rfl⟩
  | cons c a' ih =>
    intro st ha hdone
    rw [procChunk_plain_cons pl cols st c a' (ha c (by simp)) hdone]
    have h2 := ih (insertText pl cols st [c]) (fun x hx => ha x (by simp [hx]))
      (by rw [insertText_done]; exact hdone)
    exact ⟨h2.1, by rw [h2.2, insertText_pasting]⟩

theorem procChunk_plain_append (pl cols : Nat) :
    ∀ (a : List Char) (b : List Char) (st : EditorState),
      (∀ c ∈ a, 0x20 ≤ c.toNat ∧ c.toNat ≠ 0x7f) → st.done = false →
      procChunk pl cols st (a ++ b) = procChunk pl cols (procChunk pl cols st a) b := by
  intro a
  induction a with
  | nil => intro b st _ _; rfl
  | cons c a' ih =>
    intro b st ha hdone
    rw [List.cons_append,
        procChunk_plain_cons pl cols st c (a' ++ b) (ha c (by simp)) hdone,
        procChunk_plain_cons pl cols st c a' (ha c (by simp)) hdone]
    exact ih b (insertText pl cols st [c]) (fun x hx => ha x (by simp [hx]))
      (by rw [insertText_done]; exact hdone)

/-- One `onData` step in paste mode when no end marker occurs in the chunk. -/
theorem onData_cons_pasting (pl cols : Nat) (st : EditorState) (c : Char) (s' : List Char)
    (hdone : st.done = false) (hp : st.pasting = true)
    (hidx : indexOfSub? pasteEndMarker (c :: s') = none) :
    onData pl cols st (c :: s') =
      redraw pl cols
        { st with buf := insertAt st.buf st.cursor (normalizeNl (c :: s')),
                  cursor := st.cursor + (normalizeNl (c :: s')).length } := by
  unfold onData
  rw [List.length_cons, onDataF, if_neg (by simp [hdone]), if_pos hp, hidx]

/-- One `onData` step outside paste mode when no start marker occurs. -/
theorem onData_cons_nopaste (pl cols : Nat) (st : EditorState) (c : Char) (s' : List Char)
    (hdone : st.done = false) (hp : st.pasting = false)
    (hidx : indexOfSub? pasteStartMarker (c :: s') = none) :
    onData pl cols st (c :: s') = procChunk pl cols st (c :: s') := by
  unfold onData
  rw [List.length_cons, onDataF, if_neg (by simp [hdone]), if_neg (by simp [hp]), hidx]

theorem onData_plain_split (pl cols : Nat) (st : EditorState) (a b : List Char)
    (hab : ∀ c ∈ a ++ b, 0x20 ≤ c.toNat ∧ c.toNat ≠ 0x7f) :
    onData pl cols st (a ++ b) = onData pl cols (onData pl cols st a) b := by
  have hesc : '\x1b' ∉ a ++ b := fun hm => absurd (hab _ hm).1 (by decide)
  have hesc_a : '\x1b' ∉ a := fun hm => hesc (by simp [hm])
  have hesc_b : '\x1b' ∉ b := fun hm => hesc (by simp [hm])
  by_cases hd : st.done = true
  · rw [onData_done pl cols st _ hd, onData_done pl cols st _ hd, onData_done pl cols st _ hd]
  · have hdone : st.done = false := by simpa using hd
    by_cases ha0 : a = []
    · subst ha0; rfl
    · by_cases hb0 : b = []
      · subst hb0
        rw [List.append_nil]
        rfl
      · obtain ⟨c, a', rfl⟩ : ∃ c a', a = c :: a' := by
          cases a with
          | nil => exact absurd rfl ha0
          | cons c a' => exact ⟨c, a', rfl⟩
        obtain ⟨d, b', rfl⟩ : ∃ d b', b = d :: b' := by
          cases b with
          | nil => exact absurd rfl hb0
          | cons d b' => exact ⟨d, b', rfl⟩
        have hplain_a : ∀ x ∈ c :: a', 0x20 ≤ x.toNat ∧ x.toNat ≠ 0x7f :=
          fun x hx => hab x (List.mem_append_left _ hx)
        have hnorm_ab : normalizeNl (c :: (a' ++ d :: b')) = c :: (a' ++ d :: b') :=
          normalizeNl_eq_self _ (fun x hx => by
            have h := (hab x hx).1
            exact ⟨fun he => absurd h (by subst he; decide),
                   fun he => absurd h (by subst he; decide)⟩)
        have hnorm_a : normalizeNl (c :: a') = c :: a' :=
          normalizeNl_eq_self _ (fun x hx => by
            have h := (hplain_a x hx).1
            exact ⟨fun he => absurd h (by subst he; decide),
                   fun he => absurd h (by subst he; decide)⟩)
        have hnorm_b : normalizeNl (d :: b') = d :: b' :=
          normalizeNl_eq_self _ (fun x hx => by
            have h := (hab x (List.mem_append_right _ hx)).1
            exact ⟨fun he => absurd h (by subst he; decide),
                   fun he => absurd h (by subst he; decide)⟩)
        rw [List.cons_append]
        by_cases hp : st.pasting = true
        · -- paste mode: both deliveries buffer the (trivially normalized) text
          rw [onData_cons_pasting pl cols st c (a' ++ d :: b') hdone hp
                (indexOfSub?_eq_none _ _ '\x1b' rfl hesc),
              onData_cons_pasting pl cols st c a' hdone hp
                (indexOfSub?_eq_none _ _ '\x1b' rfl hesc_a),
              onData_cons_pasting pl cols _ d b' (by simp [redraw, hdone])
                (by simp [redraw, hp]) (indexOfSub?_eq_none _ _ '\x1b' rfl hesc_b)]
          simp only [hnorm_ab, hnorm_a, hnorm_b, redraw]
          simp only [EditorState.mk.injEq]
          refine ⟨?_, ?_, trivial, trivial, trivial, ?_⟩
          · exact (insertAt_insertAt st.buf st.cursor (c :: a') (d :: b')).symm
          · simp [List.length_append]
            omega
          · have hlen : st.cursor + (c :: a').length + (d :: b').length =
                st.cursor + (c :: (a' ++ d :: b')).length := by
              simp [List.length_append]
              omega
            rw [insertAt_insertAt st.buf st.cursor (c :: a') (d :: b'), hlen,
                List.cons_append]
        · -- normal mode: both deliveries run the per-character loop
          have hpast : st.pasting = false := by simpa using hp
          have hst1 := procChunk_plain_state pl cols (c :: a') st hplain_a hdone
          rw [onData_cons_nopaste pl cols st c (a' ++ d :: b') hdone hpast
                (indexOfSub?_eq_none _ _ '\x1b' rfl hesc),
              onData_cons_nopaste pl cols st c a' hdone hpast
                (indexOfSub?_eq_none _ _ '\x1b' rfl hesc_a),
              onData_cons_nopaste pl cols _ d b' hst1.1 (hst1.2.trans hpast)
                (indexOfSub?_eq_none _ _ '\x1b' rfl hesc_b)]
          exact procChunk_plain_append pl cols (c :: a') (d :: b') st hplain_a hdone

/-- C3 fails as stated: a CSI sequence split across two reads is not kept as
unconsumed trailing bytes.  Typing `ab` then Left as one chunk moves the
cursor; delivered as `"ab\x1b"` + `"[D"`, the trailing ESC is consumed and
dropped and `[D` is inserted as literal text, yielding buffer `"ab[D"`. -/
theorem split_escape_not_preserved :
    "ab\x1b".toList ++ "[D".toList = "ab\x1b[D".toList ∧
    (processChunks 6 80 initState ["ab\x1b[D".toList]).buf = "ab".toList ∧
    (processChunks 6 80 initState ["ab\x1b".toList, "[D".toList]).buf = "ab[D".toList ∧
    processChunks 6 80 initState ["ab\x1b".toList, "[D".toList] ≠
      processChunks 6 80 initState ["ab\x1b[D".toList] := by
  refine ⟨?_, ?_, ?_, ?_⟩ <;> decide

/-- C3 (amended): delivering plain printable input (every code ≥ 0x20, DEL
excluded) split into arbitrarily many chunks produces exactly the state of
delivering it as one chunk, from any editor state.  Beyond plain printable
input chunking is observable: `onData` keeps no unconsumed trailing bytes,
so an escape sequence split across reads is consumed-and-dropped, as the
counterexample shows. -/
theorem plain_chunking_like_single_read (pl cols : Nat) (st : EditorState)
    (chunks : List (List Char))
    (h : ∀ ch ∈ chunks, ∀ c ∈ ch, 0x20 ≤ c.toNat ∧ c.toNat ≠ 0x7f) :
    processChunks pl cols st chunks = onData pl cols st chunks.flatten := by
  induction chunks generalizing st with
  | nil => rfl
  | cons ch rest ih =>
    show processChunks pl cols (onData pl cols st ch) rest = _
    rw [ih (onData pl cols st ch) (fun x hx y hy => h x (by simp [hx]) y hy)]
    rw [List.flatten_cons]
    exact (onData_plain_split pl cols st ch rest.flatten (fun c hc => by
      rcases List.mem_append.mp hc with hmem | hmem
      · exact h ch (by simp) c hmem
      · obtain ⟨l, hl, hcl⟩ := List.mem_flatten.mp hmem
        exact h l (by simp [hl]) c hcl)).symm

/-- Witness for C3 (amended) on a concrete plain-text split. -/
theorem plain_chunking_like_single_read_witness :
    processChunks 6 80 initState ["ab".toList, "cd".toList] =
      onData 6 80 initState (["ab".toList, "cd".toList].flatten) :=
  plain_chunking_like_single_read 6 80 initState ["ab".toList, "cd".toList] (by decide)

theorem normalizeNl_append : ∀ (a b : List Char),
    ¬(a.getLast? = some '\r' ∧ b.head? = some '\n') →
    normalizeNl (a ++ b) = normalizeNl a ++ normalizeNl b := by
  intro a
  induction a using normalizeNl.induct with
  | case1 => intro b _; rfl
  | case2 rest ih =>
    intro b hc
    rw [List.cons_append, List.cons_append, normalizeNl_rn, normalizeNl_rn]
    rw [ih b (by
      cases rest with
      | nil => simp
      | cons x t => simpa [List.getLast?_cons_cons] using hc)]
    rfl
  | case3 rest hne ih =>
    intro b hc
    cases rest with
    | nil =>
      have hb : b.head? ≠ some '\n' := fun hh => hc ⟨rfl, hh⟩
      rw [List.cons_append, List.nil_append, normalizeNl_r b hb]
      rfl
    | cons x t =>
      have hx : x ≠ '\n' := fun he => hne t (by rw [he])
      rw [List.cons_append, List.cons_append,
          normalizeNl_r (x :: (t ++ b)) (by simp [hx]),
          normalizeNl_r (x :: t) (by simp [hx])]
      rw [← List.cons_append, ih b (by simpa [List.getLast?_cons_cons] using hc)]
      rfl
  | case4 rest ih =>
    intro b hc
    rw [List.cons_append, normalizeNl_n, normalizeNl_n]
    rw [ih b (by
      cases rest with
      | nil => simp
      | cons x t => simpa [List.getLast?_cons_cons] using hc)]
    rfl
  | case5 c rest hne1 hne2 hne3 ih =>
    intro b hc
    rw [List.cons_append, normalizeNl_other c (rest ++ b) hne2 hne3,
        normalizeNl_other c rest hne2 hne3]
    rw [ih b (by
      cases rest with
      | nil => simp
      | cons x t => simpa [List.getLast?_cons_cons] using hc)]
    rfl

theorem onData_pasteStart (pl cols : Nat) (st : EditorState)
    (hdone : st.done = false) (hpaste : st.pasting = false) :
    onData pl cols st pasteStartMarker = { st with pasting := true } := by
  obtain ⟨buf, cur, pas, don, out, sr⟩ := st
  simp only at hdone hpaste
  subst hdone hpaste
  rfl

theorem insertAt_nil (buf : List Char) (k : Nat) : insertAt buf k [] = buf := by
  simp [insertAt]

theorem onData_pasteEnd (pl cols : Nat) (st : EditorState)
    (hdone : st.done = false) (hp : st.pasting = true) :
    onData pl cols st pasteEndMarker = redraw pl cols { st with pasting := false } := by
  obtain ⟨buf, cur, pas, don, out, sr⟩ := st
  simp only at hdone hp
  subst hdone hp
  show redraw pl cols ⟨insertAt buf cur (normalizeNl []), cur + (normalizeNl []).length,
    false, false, out, sr⟩ = redraw pl cols ⟨buf, cur, false, false, out, sr⟩
  rw [show normalizeNl [] = [] from rfl, insertAt_nil]
  simp

/-- Buffering loop of paste mode over nonempty ESC-free chunks with no
`\r`/`\n` pair split across a boundary. -/
theorem paste_chunks_loop (pl cols : Nat) :
    ∀ (chunks : List (List Char)) (st : EditorState), st.done = false → st.pasting = true →
    (∀ ch ∈ chunks, '\x1b' ∉ ch) → (∀ ch ∈ chunks, ch ≠ []) →
    chunks.Chain' (fun x y => ¬(x.getLast? = some '\r' ∧ y.head? = some '\n')) →
    (processChunks pl cols st chunks).buf =
      insertAt st.buf st.cursor (normalizeNl chunks.flatten) ∧
    (processChunks pl cols st chunks).cursor =
      st.cursor + (normalizeNl chunks.flatten).length ∧
    (processChunks pl cols st chunks).pasting = true ∧
    (processChunks pl cols st chunks).done = false := by
  intro chunks
  induction chunks with
  | nil =>
    intro st hdone hp _ _ _
    refine ⟨?_, ?_, hp, hdone⟩
    · rw [show ([] : List (List Char)).flatten = [] from rfl,
          show normalizeNl [] = [] from rfl, insertAt_nil]
      rfl
    · rfl
  | cons ch rest ih =>
    intro st hdone hp hesc hne hchain
    obtain ⟨c, s', rfl⟩ : ∃ c s', ch = c :: s' := by
      cases ch with
      | nil => exact absurd rfl (hne [] (by simp))
      | cons c s' => exact ⟨c, s', rfl⟩
    have hstep := onData_cons_pasting pl cols st c s' hdone hp
      (indexOfSub?_eq_none _ _ '\x1b' rfl (hesc (c :: s') (by simp)))
    have hflat : normalizeNl ((c :: s') ++ rest.flatten) =
        normalizeNl (c :: s') ++ normalizeNl rest.flatten := by
      apply normalizeNl_append
      intro hand
      cases rest with
      | nil => simp at hand
      | cons y rest' =>
        have hy : y ≠ [] := hne y (by simp)
        have hcy : ¬((c :: s').getLast? = some '\r' ∧ y.head? = some '\n') :=
          (List.chain'_cons.mp hchain).1
        apply hcy
        refine ⟨hand.1, ?_⟩
        have hh : ((y :: rest').flatten).head? = y.head? := by
          rw [List.flatten_cons]
          cases y with
          | nil => exact absurd rfl hy
          | cons d t => rfl
        rw [← hh]
        exact hand.2
    have hcons : processChunks pl cols st ((c :: s') :: rest) =
        processChunks pl cols (onData pl cols st (c :: s')) rest := rfl
    rw [hcons, hstep]
    have hrec := ih (redraw pl cols
        { st with buf := insertAt st.buf st.cursor (normalizeNl (c :: s')),
                  cursor := st.cursor + (normalizeNl (c :: s')).length })
      hdone hp
      (fun x hx => hesc x (by simp [hx])) (fun x hx => hne x (by simp [hx]))
      (List.Chain'.tail hchain)
    refine ⟨?_, ?_, hrec.2.2.1, hrec.2.2.2⟩
    · rw [hrec.1]
      show insertAt (insertAt st.buf st.cursor (normalizeNl (c :: s')))
          (st.cursor + (normalizeNl (c :: s')).length) (normalizeNl rest.flatten) = _
      rw [insertAt_insertAt st.buf st.cursor (normalizeNl (c :: s')) (normalizeNl rest.flatten)]
      rw [List.flatten_cons, hflat]
    · rw [hrec.2.1]
      show st.cursor + (normalizeNl (c :: s')).length + (normalizeNl rest.flatten).length = _
      rw [List.flatten_cons, hflat, List.length_append]
      omega

/-- C4 fails as stated: the newline normalization is applied per chunk, so a
`\r\n` pair split across two paste reads becomes two newlines instead of
one.  Pasting `"a\r" + "\nb"` yields buffer `"a\n\nb"`, not the normalized
`"a\nb"`. -/
theorem paste_crlf_split_cex :
    (processChunks 6 80 initState
        ["\x1b[200~".toList, "a\r".toList, "\nb".toList, "\x1b[201~".toList]).buf =
      "a\n\nb".toList ∧
    normalizeNl ("a\r".toList ++ "\nb".toList) = "a\nb".toList ∧
    "a\n\nb".toList ≠ "a\nb".toList := by
  refine ⟨?_, ?_, ?_⟩ <;> decide

/-- C4 (amended): a bracketed paste of text T delivered as any number of
nonempty ESC-free chunks, none splitting a `\r\n` pair across a boundary,
followed by the end marker, inserts T with every newline form (`\r\n`,
`\r`, `\n`) normalized to `\n` at the cursor and advances the cursor by the
normalized length; paste mode is left again and the session stays live. -/
theorem paste_inserts_normalized_text (pl cols : Nat) (st : EditorState)
    (chunks : List (List Char)) (hdone : st.done = false) (hpaste : st.pasting = false)
    (hesc : ∀ ch ∈ chunks, '\x1b' ∉ ch) (hne : ∀ ch ∈ chunks, ch ≠ [])
    (hchain : chunks.Chain' (fun x y => ¬(x.getLast? = some '\r' ∧ y.head? = some '\n'))) :
    (processChunks pl cols st (pasteStartMarker :: chunks ++ [pasteEndMarker])).buf =
      insertAt st.buf st.cursor (normalizeNl chunks.flatten) ∧
    (processChunks pl cols st (pasteStartMarker :: chunks ++ [pasteEndMarker])).cursor =
      st.cursor + (normalizeNl chunks.flatten).length ∧
    (processChunks pl cols st (pasteStartMarker :: chunks ++ [pasteEndMarker])).pasting = false ∧
    (processChunks pl cols st (pasteStartMarker :: chunks ++ [pasteEndMarker])).done = false := by
  have h0 : processChunks pl cols st (pasteStartMarker :: chunks ++ [pasteEndMarker]) =
      onData pl cols (processChunks pl cols { st with pasting := true } chunks)
        pasteEndMarker := by
    have h1 : processChunks pl cols st (pasteStartMarker :: chunks ++ [pasteEndMarker]) =
        processChunks pl cols (onData pl cols st pasteStartMarker)
          (chunks ++ [pasteEndMarker]) := rfl
    rw [h1, onData_pasteStart pl cols st hdone hpaste]
    rw [processChunks, List.foldl_append]
    rfl
  have hl := paste_chunks_loop pl cols chunks { st with pasting := true } hdone rfl hesc hne hchain
  rw [h0, onData_pasteEnd pl cols _ hl.2.2.2 hl.2.2.1]
  exact ⟨hl.1, hl.2.1, rfl, hl.2.2.2⟩

/-- Witness for C4 (amended): pasting `"line1\nline2"` into the empty buffer
yields that buffer with the cursor at offset 11, and the buffer occupies two
logical lines for the geometry engine. -/
theorem paste_inserts_normalized_text_witness :
    (processChunks 6 80 initState
        (pasteStartMarker :: ["line1\nline2".toList] ++ [pasteEndMarker])).buf =
      "line1\nline2".toList ∧
    (processChunks 6 80 initState
        (pasteStartMarker :: ["line1\nline2".toList] ++ [pasteEndMarker])).cursor = 11 ∧
    totalRows ("line1\nline2".toList) 6 80 = 2 := by
  have h := paste_inserts_normalized_text 6 80 initState ["line1\nline2".toList]
    rfl rfl (by decide) (by decide) (by simp)
  exact ⟨h.1.trans (by decide), h.2.1.trans (by decide), by decide⟩



theorem length_dropWhile_le (p : Char → Bool) (l : List Char) :
    (l.dropWhile p).length ≤ l.length := by
  induction l with
  | nil => simp
  | cons a t ih =>
    rw [List.dropWhile_cons]
    split
    · simp only [List.length_cons]
      omega
    · simp

theorem matchSgr_length : ∀ (r r' : List Char), matchSgr r = some r' → r'.length ≤ r.length := by
  intro r r' h
  cases r with
  | nil => simp [matchSgr] at h
  | cons c rr =>
    by_cases hc : c = '['
    · subst hc
      cases hdw : rr.dropWhile isCsiParamChar with
      | nil => simp [matchSgr, hdw] at h
      | cons m rest =>
        by_cases hm : m = 'm'
        · subst hm
          simp [matchSgr, hdw] at h
          subst h
          have h1 : (rr.dropWhile isCsiParamChar).length ≤ rr.length :=
            length_dropWhile_le _ _
          rw [hdw] at h1
          simp at h1
          simp
          omega
        · simp [matchSgr, hdw, hm] at h
    · simp [matchSgr, hc] at h

theorem matchSgr_concat (params x : List Char) (hp : ∀ c ∈ params, isCsiParamChar c) :
    matchSgr ('[' :: (params ++ 'm' :: x)) = some x := by
  have hdw : (params ++ 'm' :: x).dropWhile isCsiParamChar = 'm' :: x := by
    induction params with
    | nil => simp [List.dropWhile, isCsiParamChar]
    | cons q qs ih =>
      rw [List.cons_append, List.dropWhile_cons]
      rw [if_pos (by simpa using hp q (by simp))]
      exact ih (fun c hc => hp c (by simp [hc]))
  simp [matchSgr, hdw]

theorem stripAnsiF_fuel : ∀ (f1 : Nat) (f2 : Nat) (l : List Char),
    l.length ≤ f1 → l.length ≤ f2 → stripAnsiF f1 l = stripAnsiF f2 l := by
  intro f1
  induction f1 with
  | zero =>
    intro f2 l h1 _
    have : l = [] := List.eq_nil_of_length_eq_zero (by omega)
    subst this
    cases f2 <;> rfl
  | succ f ih =>
    intro f2 l h1 h2
    cases l with
    | nil => cases f2 <;> rfl
    | cons c rest =>
      cases f2 with
      | zero => simp at h2
      | succ g =>
        simp only [stripAnsiF]
        split
        · cases hm : matchSgr rest with
          | some rest' =>
            have hlen := matchSgr_length rest rest' hm
            simp only [List.length_cons] at h1 h2
            exact ih g rest' (by omega) (by omega)
          | none =>
            simp only [List.length_cons] at h1 h2
            rw [ih g rest (by omega) (by omega)]
        · simp only [List.length_cons] at h1 h2
          rw [ih g rest (by omega) (by omega)]

theorem stripAnsi_cons_plain (c : Char) (rest : List Char) (h : c ≠ '\x1b') :
    stripAnsi (c :: rest) = c :: stripAnsi rest := by
  show stripAnsiF (c :: rest).length (c :: rest) = _
  rw [List.length_cons, stripAnsiF, if_neg h]
  rfl

theorem stripAnsi_sgr (params x : List Char) (hp : ∀ c ∈ params, isCsiParamChar c) :
    stripAnsi ('\x1b' :: '[' :: (params ++ 'm' :: x)) = stripAnsi x := by
  show stripAnsiF ('\x1b' :: '[' :: (params ++ 'm' :: x)).length _ = _
  rw [List.length_cons, stripAnsiF, if_pos rfl, matchSgr_concat params x hp]
  exact stripAnsiF_fuel _ _ x (by simp [List.length_append]; omega) (le_refl _)

theorem sliceSyntaxF_nil (s e : Nat) : ∀ (f p : Nat), sliceSyntaxF s e f [] p = [] := by
  intro f p
  cases f with
  | zero => rfl
  | succ g =>
    rw [sliceSyntaxF]
    split <;> rfl

theorem sliceSyntaxF_fuel (s e : Nat) : ∀ (f1 f2 : Nat) (l : List Char) (p : Nat),
    l.length ≤ f1 → l.length ≤ f2 → sliceSyntaxF s e f1 l p = sliceSyntaxF s e f2 l p := by
  intro f1
  induction f1 with
  | zero =>
    intro f2 l p h1 _
    have : l = [] := List.eq_nil_of_length_eq_zero (by omega)
    subst this
    rw [sliceSyntaxF_nil, sliceSyntaxF_nil]
  | succ f ih =>
    intro f2 l p h1 h2
    cases l with
    | nil => rw [sliceSyntaxF_nil, sliceSyntaxF_nil]
    | cons c rest =>
      cases f2 with
      | zero => simp at h2
      | succ g =>
        simp only [List.length_cons] at h1 h2
        rw [sliceSyntaxF, sliceSyntaxF]
        split
        · rfl
        · split
          · cases hj : idxOfM? rest with
            | some j =>
              dsimp only
              rw [ih g (rest.drop (j + 1)) p
                    (by rw [List.length_drop]; omega) (by rw [List.length_drop]; omega)]
            | none =>
              dsimp only
              rw [ih g rest (p + 1) (by omega) (by omega)]
          · rw [ih g rest (p + 1) (by omega) (by omega)]

theorem idxOfM_concat (params x : List Char) (hp : ∀ c ∈ params, isCsiParamChar c) :
    idxOfM? ('[' :: (params ++ 'm' :: x)) = some (params.length + 1) := by
  rw [idxOfM?, if_neg (by decide)]
  have hmain : ∀ (ps : List Char), (∀ c ∈ ps, isCsiParamChar c) →
      idxOfM? (ps ++ 'm' :: x) = some ps.length := by
    intro ps
    induction ps with
    | nil => intro _; simp [idxOfM?]
    | cons q qs ih =>
      intro hq
      have hqm : q ≠ 'm' := by
        intro he
        have := hq q (by simp)
        rw [he] at this
        simp [isCsiParamChar] at this
      rw [List.cons_append, idxOfM?, if_neg hqm, ih (fun c hc => hq c (by simp [hc]))]
      simp
  rw [hmain params hp]
  simp

theorem sgr_take (params x : List Char) :
    ('[' :: (params ++ 'm' :: x)).take (params.length + 1 + 1) = '[' :: (params ++ ['m']) := by
  rw [List.take_succ_cons]
  congr 1
  rw [List.take_append_eq_append_take, List.take_of_length_le (by omega),
      show params.length + 1 - params.length = 1 from by omega]
  rfl

theorem sgr_drop (params x : List Char) :
    ('[' :: (params ++ 'm' :: x)).drop (params.length + 1 + 1) = x := by
  rw [List.drop_succ_cons]
  rw [List.drop_append_eq_append_drop, List.drop_of_length_le (by omega),
      show params.length + 1 - params.length = 1 from by omega]
  rfl

theorem strip_slice_main (s e : Nat) : ∀ (l : List Char), SgrColored l →
    ∀ (p f : Nat), l.length ≤ f →
    stripAnsi (sliceSyntaxF s e f l p) = ((stripAnsi l).take (e - p)).drop (s - p) := by
  intro l hcol
  induction hcol with
  | nil =>
    intro p f _
    rw [sliceSyntaxF_nil]
    show ([] : List Char) = _
    simp [stripAnsi, stripAnsiF]
  | plain c rest hne ihcol ih =>
    intro p f hf
    cases f with
    | zero => simp at hf
    | succ g =>
      simp only [List.length_cons] at hf
      rw [sliceSyntaxF]
      rw [stripAnsi_cons_plain c rest hne]
      by_cases hep : e ≤ p
      · rw [if_pos hep]
        have : e - p = 0 := by omega
        rw [this]
        simp [stripAnsi, stripAnsiF]
      · rw [if_neg hep]
        rw [if_neg hne]
        have htake : (c :: stripAnsi rest).take (e - p) =
            c :: (stripAnsi rest).take (e - p - 1) := by
          rw [show e - p = (e - p - 1) + 1 from by omega]
          rfl
        rw [htake]
        by_cases hsp : s ≤ p
        · rw [if_pos hsp]
          rw [show (s - p) = 0 from by omega, List.drop_zero]
          show stripAnsi (c :: sliceSyntaxF s e g rest (p + 1)) = _
          rw [stripAnsi_cons_plain c _ hne]
          rw [ih (p + 1) g (by omega)]
          rw [show s - (p + 1) = 0 from by omega, show e - (p + 1) = e - p - 1 from by omega,
              List.drop_zero]
        · rw [if_neg hsp]
          rw [List.nil_append]
          rw [ih (p + 1) g (by omega)]
          rw [show (s - p) = (s - (p + 1)) + 1 from by omega, List.drop_succ_cons]
          rw [show e - (p + 1) = e - p - 1 from by omega]
  | sgr params rest hp ihcol ih =>
    intro p f hf
    cases f with
    | zero => simp at hf
    | succ g =>
      simp only [List.length_cons, List.length_append] at hf
      rw [sliceSyntaxF]
      rw [stripAnsi_sgr params rest hp]
      by_cases hep : e ≤ p
      · rw [if_pos hep]
        have : e - p = 0 := by omega
        rw [this]
        simp [stripAnsi, stripAnsiF]
      · rw [if_neg hep]
        rw [if_pos rfl]
        rw [idxOfM_concat params rest hp]
        show stripAnsi
            ((if s ≤ p then
                '\x1b' :: ('[' :: (params ++ 'm' :: rest)).take (params.length + 1 + 1)
              else []) ++
              sliceSyntaxF s e g (('[' :: (params ++ 'm' :: rest)).drop (params.length + 1 + 1)) p) =
          ((stripAnsi rest).take (e - p)).drop (s - p)
        rw [sgr_take, sgr_drop]
        have hrec : stripAnsi (sliceSyntaxF s e g rest p) =
            ((stripAnsi rest).take (e - p)).drop (s - p) := by
          apply ih
          omega
        by_cases hsp : s ≤ p
        · rw [if_pos hsp]
          have hshape : '\x1b' :: ('[' :: (params ++ ['m'])) ++ sliceSyntaxF s e g rest p =
              '\x1b' :: '[' :: (params ++ 'm' :: sliceSyntaxF s e g rest p) := by
            simp
          rw [hshape, stripAnsi_sgr params _ hp]
          exact hrec
        · rw [if_neg hsp]
          rw [List.nil_append]
          exact hrec

/-- C9: for an SGR-colorized string, extracting a sub-range by plain-text
position and then stripping colors equals stripping colors first and slicing:
`stripAnsi (sliceSyntax s a b) = stripAnsi(s).slice(a, b)` — embedded color
codes are skipped without shifting the counted positions. -/
theorem sliceSyntax_counts_plain_chars (l : List Char) (s e : Nat)
    (hcol : SgrColored l) (hse : s ≤ e) (he : e ≤ (stripAnsi l).length) :
    stripAnsi (sliceSyntax l s e) = jsSlice (stripAnsi l) s e := by
  have h := strip_slice_main s e l hcol 0 l.length (le_refl _)
  rw [Nat.sub_zero, Nat.sub_zero] at h
  exact h

/-- Witness for C9 on a concrete colorized string. -/
theorem sliceSyntax_counts_plain_chars_witness :
    stripAnsi (sliceSyntax ("a\x1b[31mbc".toList) 1 2) =
      jsSlice (stripAnsi ("a\x1b[31mbc".toList)) 1 2 :=
  sliceSyntax_counts_plain_chars ("a\x1b[31mbc".toList) 1 2
    (.plain 'a' _ (by decide)
      (.sgr ['3', '1'] ['b', 'c'] (by decide)
        (.plain 'b' _ (by decide) (.plain 'c' _ (by decide) .nil))))
    (by decide) (by decide)

theorem buildLines_all_zero (s1 s2 : List (List Char)) :
    ∀ (ds : List (Int × List Char)) (ol ml : Nat), (∀ d ∈ ds, d.1 = 0) →
    ∀ dl ∈ buildLines s1 s2 ds ol ml, dl.op = 0 := by
  intro ds
  induction ds with
  | nil => intro ol ml _ dl hdl; simp [buildLines] at hdl
  | cons d rest ih =>
    intro ol ml h dl hdl
    obtain ⟨op, text⟩ := d
    have hop : op = 0 := h (op, text) (by simp)
    subst hop
    rw [buildLines.eq_def] at hdl
    simp only [if_pos rfl] at hdl
    rcases List.mem_append.mp hdl with hm | hm
    · obtain ⟨j, _, rfl⟩ := List.mem_map.mp hm
      rfl
    · exact ih (ol + (jsChunkLines text).length) (ml + (jsChunkLines text).length)
        (fun x hx => h x (by simp [hx])) dl hm

/-- C7: diffing identical texts renders the empty string; more generally,
whenever the line-level diff has zero changed entries, `renderDiff` returns
the empty string with no header. -/
theorem renderDiff_empty_when_no_changes :
    (∀ t fp, renderDiff t t fp = []) ∧
    (∀ a b fp, (∀ d ∈ lineDiffs a b, d.1 = 0) → renderDiff a b fp = []) := by
  have part2 : ∀ a b fp, (∀ d ∈ lineDiffs a b, d.1 = 0) → renderDiff a b fp = [] := by
    intro a b fp h
    have hz : ∀ dl ∈ diffLinesOf a b fp, dl.op = 0 :=
      buildLines_all_zero _ _ _ 1 1 h
    have hfilter : (List.range (diffLinesOf a b fp).length).filter
        (changedAt (diffLinesOf a b fp)) = [] := by
      rw [List.filter_eq_nil_iff]
      intro i hi
      have hlt : i < (diffLinesOf a b fp).length := List.mem_range.mp hi
      simp only [changedAt, decide_eq_true_eq, Bool.not_eq_true]
      rw [List.getD_eq_getElem _ _ hlt]
      simp only [decide_eq_false_iff_not, not_not]
      exact hz _ (List.getElem_mem hlt)
    simp only [renderDiff]
    rw [hfilter]
    rw [if_pos rfl]
  refine ⟨fun t fp => part2 t t fp ?_, part2⟩
  intro d hd
  have hld : lineDiffs t t =
      if lineTokens t = [] then [] else [(0, (lineTokens t).flatten)] := by
    simp [lineDiffs]
  rw [hld] at hd
  split at hd
  · simp at hd
  · simp at hd
    rw [hd]

/-- Witness for C7 at a concrete pair of texts whose line diff has no
changed entries. -/
theorem renderDiff_empty_when_no_changes_witness :
    (∀ d ∈ lineDiffs ("x\ny".toList) ("x\ny".toList), d.1 = 0) ∧
      renderDiff ("x\ny".toList) ("x\ny".toList) ("f.ts".toList) = [] :=
  ⟨by decide, renderDiff_empty_when_no_changes.2 ("x\ny".toList) ("x\ny".toList)
    ("f.ts".toList) (by decide)⟩


theorem lastOfD_cons (i : Nat) (l : List Nat) (d : Int) :
    lastOfD (i :: l) d = lastOfD l (i : Int) := by
  cases l with
  | nil => rfl
  | cons x t =>
    unfold lastOfD
    rw [List.getLast?_cons_cons]
    cases h : (x :: t).getLast? with
    | none => exact absurd h (by simp)
    | some y => rfl

theorem visFrom_ge (L : List DiffLine) (idx : Nat) (h : L.length ≤ idx) :
    visFrom L idx = [] := by
  unfold visFrom
  rw [List.drop_eq_nil_of_le (by rw [List.length_range]; exact h)]
  rfl

theorem visFrom_zero (L : List DiffLine) : visFrom L 0 = visList L := rfl

theorem visFrom_cons (L : List DiffLine) (idx : Nat) (h : idx < L.length) :
    visFrom L idx =
      if visibleB L idx then idx :: visFrom L (idx + 1) else visFrom L (idx + 1) := by
  unfold visFrom
  rw [List.drop_eq_getElem_cons (by rw [List.length_range]; exact h)]
  rw [List.getElem_range]
  rw [List.filter_cons]

theorem renderLoopF_succ (L : List DiffLine) (vis : Nat → Bool) (f idx o : Nat) (last : Int) :
    renderLoopF L vis (f + 1) idx o last =
      if idx < L.length ∧ o < MAX_OUTPUT_LINES then
        if vis idx then
          ((if decide (last + 1 < (idx : Int)) then [gapMarker] else []) ++
            [renderLine (L.getD idx dl0)] ++
            (renderLoopF L vis f (idx + 1)
              (o + (if decide (last + 1 < (idx : Int)) then 1 else 0) + 1) (idx : Int)).1,
           (renderLoopF L vis f (idx + 1)
              (o + (if decide (last + 1 < (idx : Int)) then 1 else 0) + 1) (idx : Int)).2)
        else renderLoopF L vis f (idx + 1) o last
      else ([], o, last) := rfl

theorem renderLoopF_spec (L : List DiffLine) :
    ∀ (f idx o : Nat) (last : Int), L.length - idx ≤ f →
    ∃ k, k ≤ (visFrom L idx).length ∧
      renderLoopF L (visibleB L) f idx o last =
        (partsFor L ((visFrom L idx).take k) last,
         o + countFor ((visFrom L idx).take k) last,
         lastOfD ((visFrom L idx).take k) last) ∧
      (k = (visFrom L idx).length ∨
        MAX_OUTPUT_LINES ≤ o + countFor ((visFrom L idx).take k) last) ∧
      (∀ j, j < k → o + countFor ((visFrom L idx).take j) last < MAX_OUTPUT_LINES) := by
  intro f
  induction f with
  | zero =>
    intro idx o last hf
    refine ⟨0, by omega, ?_, ?_, by intro j hj; omega⟩
    · simp [renderLoopF, partsFor, countFor, lastOfD]
    · left
      rw [visFrom_ge L idx (by omega)]
      rfl
  | succ f ih =>
    intro idx o last hf
    by_cases hidx : idx < L.length
    · by_cases ho : o < MAX_OUTPUT_LINES
      · by_cases hvis : visibleB L idx
        · -- visible: consume idx
          have hvf : visFrom L idx = idx :: visFrom L (idx + 1) := by
            rw [visFrom_cons L idx hidx, if_pos hvis]
          obtain ⟨k', hk'le, heq, hstop, hchk⟩ := ih (idx + 1)
            (o + (if decide (last + 1 < (idx : Int)) then 1 else 0) + 1) (idx : Int)
            (by omega)
          refine ⟨k' + 1, ?_, ?_, ?_, ?_⟩
          · rw [hvf]
            simp only [List.length_cons]
            omega
          · rw [renderLoopF_succ, if_pos ⟨hidx, ho⟩, if_pos hvis, heq, hvf,
              List.take_succ_cons, partsFor, countFor, lastOfD_cons]
            simp only [Prod.mk.injEq]
            refine ⟨by trivial, ?_, by trivial⟩
            cases hgap : decide (last + 1 < (idx : Int)) <;> simp [hgap] <;> omega
          · rw [hvf, List.take_succ_cons, List.length_cons, countFor]
            rcases hstop with h1 | h1
            · left; omega
            · right
              revert h1
              cases hgap : decide (last + 1 < (idx : Int)) <;> simp [hgap] <;> omega
          · intro j hj
            cases j with
            | zero => simpa [countFor]
            | succ j' =>
              rw [hvf, List.take_succ_cons, countFor]
              have hc := hchk j' (by omega)
              revert hc
              cases hgap : decide (last + 1 < (idx : Int)) <;> simp [hgap] <;> omega
        · -- not visible: skip idx
          have hvf : visFrom L idx = visFrom L (idx + 1) := by
            rw [visFrom_cons L idx hidx, if_neg (by simpa using hvis)]
          obtain ⟨k, hkle, heq, hstop, hchk⟩ := ih (idx + 1) o last (by omega)
          refine ⟨k, by rw [hvf]; exact hkle, ?_, by rw [hvf]; exact hstop,
            by rw [hvf]; exact hchk⟩
          rw [renderLoopF_succ, if_pos ⟨hidx, ho⟩, if_neg (by simpa using hvis), hvf]
          exact heq
      · -- output cap hit
        refine ⟨0, by omega, ?_, Or.inr (by simp [countFor]; omega), by intro j hj; omega⟩
        rw [renderLoopF_succ, if_neg (by omega)]
        simp [partsFor, countFor, lastOfD]
    · -- past the end
      refine ⟨0, by omega, ?_, ?_, by intro j hj; omega⟩
      · rw [renderLoopF_succ, if_neg (by omega)]
        simp [partsFor, countFor, lastOfD]
      · left
        rw [visFrom_ge L idx (by omega)]
        rfl

theorem visList_pairwise (L : List DiffLine) : (visList L).Pairwise (· < ·) :=
  (List.pairwise_lt_range _).filter _

theorem visibleB_iff (L : List DiffLine) (i : Nat) :
    visibleB L i = true ↔
      i < L.length ∧ ∃ c, c < L.length ∧ changedAt L c = true ∧
        c ≤ i + CONTEXT_LINES ∧ i ≤ c + CONTEXT_LINES := by
  unfold visibleB
  simp [List.any_eq_true, List.mem_range, and_assoc]

theorem mem_visList (L : List DiffLine) (i : Nat) :
    i ∈ visList L ↔ visibleB L i = true := by
  unfold visList
  rw [List.mem_filter, List.mem_range]
  constructor
  · exact fun h => h.2
  · intro h
    exact ⟨((visibleB_iff L i).mp h).1, h⟩

theorem countFor_append_one (l : List Nat) (x : Nat) (d : Int) :
    countFor (l ++ [x]) d =
      countFor l d + (if decide (lastOfD l d + 1 < (x : Int)) then 2 else 1) := by
  induction l generalizing d with
  | nil => simp [countFor, lastOfD]
  | cons i t ih =>
    rw [List.cons_append, countFor, countFor, lastOfD_cons, ih (i : Int)]
    omega

theorem lastOfD_take (l : List Nat) (m : Nat) (d : Int) (h1 : 1 ≤ m) (h2 : m ≤ l.length) :
    lastOfD (l.take m) d = ((l.get ⟨m - 1, by omega⟩ : Nat) : Int) := by
  unfold lastOfD
  rw [List.getLast?_eq_getElem?]
  have hlen : (l.take m).length = m := by
    rw [List.length_take]
    omega
  have hm1 : m - 1 < (l.take m).length := by
    rw [hlen]
    omega
  rw [hlen, List.getElem?_eq_getElem hm1]
  show ((l.take m).get ⟨m - 1, hm1⟩ : Int) = _
  congr 1
  simp [List.getElem_take]

theorem lastOfD_ge (l : List Nat) (d : Int) (h : ∀ x ∈ l, d ≤ (x : Int)) :
    d ≤ lastOfD l d := by
  unfold lastOfD
  cases hg : l.getLast? with
  | none => exact le_refl d
  | some y =>
    rw [List.getLast?_eq_getElem?] at hg
    exact h y (List.getElem?_mem hg)

theorem filter_gt_lastOf (l : List Nat) : ∀ (k : Nat) (d : Int),
    l.Pairwise (· < ·) → (∀ x ∈ l, d < (x : Int)) → k ≤ l.length →
    l.filter (fun i : Nat => decide (lastOfD (l.take k) d < (i : Int))) = l.drop k := by
  induction l with
  | nil => intro k d _ _ hk; simp
  | cons x t ih =>
    intro k d hp hall hk
    cases k with
    | zero =>
      rw [List.take_zero, List.drop_zero]
      refine List.filter_eq_self.mpr ?_
      intro a ha
      exact decide_eq_true (hall a ha)
    | succ k =>
      simp only [List.take_succ_cons, lastOfD_cons]
      have hxlt : ∀ y ∈ t, (x : Int) < (y : Int) := by
        intro y hy
        exact_mod_cast (List.pairwise_cons.mp hp).1 y hy
      have hge : (x : Int) ≤ lastOfD (t.take k) (x : Int) := by
        refine lastOfD_ge _ _ ?_
        intro y hy
        exact le_of_lt (hxlt y (List.take_subset _ _ hy))
      rw [List.filter_cons_of_neg (by simpa using not_lt_of_le hge)]
      rw [List.drop_succ_cons]
      exact ih k (x : Int) (List.pairwise_cons.mp hp).2 hxlt (by simpa using hk)

theorem visible_of_changed (L : List DiffLine) (c : Nat) (hc : c < L.length)
    (hch : changedAt L c = true) : visibleB L c = true := by
  rw [visibleB_iff]
  exact ⟨hc, c, hc, hch, by omega, by omega⟩

theorem mem_le_last (l : List Nat) (hp : l.Pairwise (· < ·)) (h0 : 0 < l.length)
    (x : Nat) (hx : x ∈ l) : x ≤ l[l.length - 1] := by
  obtain ⟨n, hn, he⟩ := List.getElem_of_mem hx
  subst he
  rcases Nat.lt_or_ge n (l.length - 1) with h | h
  · exact le_of_lt (List.pairwise_iff_getElem.mp hp n (l.length - 1) hn (by omega) h)
  · have hne : n = l.length - 1 := by omega
    subst hne
    exact le_refl _

theorem sorted_no_middle (l : List Nat) (hp : l.Pairwise (· < ·)) (m : Nat)
    (hm : m < l.length) (h1 : 1 ≤ m) (y : Nat) (hy : y ∈ l)
    (ha : l[m - 1] < y) (hb : y < l[m]) : False := by
  obtain ⟨n, hn, he⟩ := List.getElem_of_mem hy
  subst he
  have hg := List.pairwise_iff_getElem.mp hp
  rcases Nat.lt_or_ge n m with h | h
  · rcases Nat.lt_or_ge n (m - 1) with h2 | h2
    · have := hg n (m - 1) hn (by omega) h2
      omega
    · have hne : n = m - 1 := by omega
      subst hne
      omega
  · rcases Nat.lt_or_ge n (l.length) with h2 | h2
    · rcases Nat.eq_or_lt_of_le h with h3 | h3
      · subst h3
        omega
      · have := hg m n (by omega) hn h3
        omega
    · omega

theorem cap_not_full (L : List DiffLine)
    (hcap : MAX_OUTPUT_LINES < uncappedTotal L)
    (hchk : ∀ j, j < (visList L).length →
      1 + countFor ((visList L).take j) (-2) < MAX_OUTPUT_LINES) :
    False := by
  have hM : MAX_OUTPUT_LINES = 80 := rfl
  have hC : CONTEXT_LINES = 3 := rfl
  have hvl80 : 80 ≤ countFor (visList L) (-2) := by
    unfold MAX_OUTPUT_LINES uncappedTotal at hcap
    omega
  set vl := visList L with hvldef
  have hne : vl ≠ [] := by
    intro h
    rw [h] at hvl80
    simp [countFor] at hvl80
  have hlen : 0 < vl.length := List.length_pos.mpr hne
  set m := vl.length - 1 with hmdef
  have hmlt : m < vl.length := by omega
  have htake : vl = vl.take m ++ [vl[m]] := by
    have h1 : vl.take (m + 1) = vl.take m ++ (vl[m]?).toList := List.take_succ
    rw [List.getElem?_eq_getElem hmlt] at h1
    have h2 : vl.take (m + 1) = vl := List.take_of_length_le (by omega)
    rw [h2] at h1
    simpa using h1
  have hcnt : countFor vl (-2) =
      countFor (vl.take m) (-2) +
        (if decide (lastOfD (vl.take m) (-2) + 1 < (vl[m] : Int)) then 2 else 1) := by
    conv_lhs => rw [htake]
    exact countFor_append_one _ _ _
  have hpre : 1 + countFor (vl.take m) (-2) < MAX_OUTPUT_LINES := hchk m hmlt
  rw [hcnt] at hvl80
  by_cases hgap : lastOfD (vl.take m) (-2) + 1 < (vl[m] : Int)
  · rcases Nat.eq_zero_or_pos m with hm0 | hm1
    · have h0 : countFor (vl.take m) (-2) = 0 := by
        rw [hm0]
        simp [countFor]
      have h2 : (if decide (lastOfD (vl.take m) (-2) + 1 < (vl[m] : Int)) then 2 else 1) ≤ 2 := by
        split <;> omega
      omega
    · have hlast : lastOfD (vl.take m) (-2) = (vl[m - 1] : Int) := by
        have := lastOfD_take vl m (-2) hm1 (by omega)
        simpa [List.get_eq_getElem] using this
      rw [hlast] at hgap
      have hgapN : vl[m - 1] + 1 < vl[m] := by exact_mod_cast hgap
      have hvm : visibleB L vl[m] = true := (mem_visList L _).mp (List.getElem_mem hmlt)
      obtain ⟨hvmlen, c, hclen, hcch, hc1, hc2⟩ := (visibleB_iff L vl[m]).mp hvm
      have hcvis : visibleB L c = true := visible_of_changed L c hclen hcch
      have hcmem : c ∈ vl := (mem_visList L c).mpr hcvis
      have hcle : c ≤ vl[m] := by
        have h3 := mem_le_last vl (visList_pairwise L) hlen c hcmem
        simpa [← hmdef] using h3
      have hgvis : visibleB L (vl[m] - 1) = true := by
        rw [visibleB_iff]
        exact ⟨by omega, c, hclen, hcch, by omega, by omega⟩
      have hgmem : (vl[m] - 1) ∈ vl := (mem_visList L _).mpr hgvis
      exact sorted_no_middle vl (visList_pairwise L) m hmlt hm1 _ hgmem (by omega) (by omega)
  · rw [if_neg (by simpa using hgap)] at hvl80
    omega

theorem renderDiff_eq (orig mod fp : List Char) :
    renderDiff orig mod fp =
      if (List.range (diffLinesOf orig mod fp).length).filter (changedAt (diffLinesOf orig mod fp)) = [] then []
      else
        diffHeader fp ++
        (renderLoopF (diffLinesOf orig mod fp) (visibleB (diffLinesOf orig mod fp))
          (diffLinesOf orig mod fp).length 0 1 (-2)).1.flatten ++
        (if MAX_OUTPUT_LINES ≤ (renderLoopF (diffLinesOf orig mod fp) (visibleB (diffLinesOf orig mod fp))
              (diffLinesOf orig mod fp).length 0 1 (-2)).2.1 ∧
            0 < ((List.range (diffLinesOf orig mod fp).length).filter fun i =>
              visibleB (diffLinesOf orig mod fp) i &&
              decide ((renderLoopF (diffLinesOf orig mod fp) (visibleB (diffLinesOf orig mod fp))
                (diffLinesOf orig mod fp).length 0 1 (-2)).2.2 < (i : Int))).length
         then hiddenMarker ((List.range (diffLinesOf orig mod fp).length).filter fun i =>
              visibleB (diffLinesOf orig mod fp) i &&
              decide ((renderLoopF (diffLinesOf orig mod fp) (visibleB (diffLinesOf orig mod fp))
                (diffLinesOf orig mod fp).length 0 1 (-2)).2.2 < (i : Int))).length
         else []) := rfl

/-- C8: whenever the uncapped render (header plus every visible line and
collapse marker) would exceed `MAX_OUTPUT_LINES = 80`, `renderDiff` stops at
the cap after some proper prefix of the visible lines and appends a trailing
marker whose count is exactly the number of visible lines left unrendered. -/
theorem renderDiff_cap_hidden_count (a b fp : List Char)
    (hcap : MAX_OUTPUT_LINES < uncappedTotal (diffLinesOf a b fp)) :
    ∃ k, k < (visList (diffLinesOf a b fp)).length ∧
      MAX_OUTPUT_LINES ≤ 1 + countFor ((visList (diffLinesOf a b fp)).take k) (-2) ∧
      renderDiff a b fp =
        diffHeader fp ++
        (partsFor (diffLinesOf a b fp) ((visList (diffLinesOf a b fp)).take k) (-2)).flatten ++
        hiddenMarker ((visList (diffLinesOf a b fp)).length - k) := by
  set L := diffLinesOf a b fp with hL
  have hch : (List.range L.length).filter (changedAt L) ≠ [] := by
    intro h
    have hvis0 : ∀ i, visibleB L i = false := by
      intro i
      cases hv : visibleB L i
      · rfl
      · exfalso
        obtain ⟨_, c, hclen, hcch, _, _⟩ := (visibleB_iff L i).mp hv
        have hmem : c ∈ (List.range L.length).filter (changedAt L) := by
          rw [List.mem_filter, List.mem_range]
          exact ⟨hclen, hcch⟩
        rw [h] at hmem
        exact absurd hmem (List.not_mem_nil c)
    have hvlnil : visList L = [] := by
      unfold visList
      refine List.filter_eq_nil.mpr ?_
      intro i _
      rw [hvis0 i]
      simp
    unfold MAX_OUTPUT_LINES uncappedTotal at hcap
    rw [hvlnil] at hcap
    simp [countFor] at hcap
  obtain ⟨k, hkle, heq, hstop, hchk⟩ := renderLoopF_spec L L.length 0 1 (-2) (by omega)
  rw [visFrom_zero] at hkle heq hstop hchk
  rcases Nat.eq_or_lt_of_le hkle with hfull | hklt
  · exact absurd (cap_not_full L hcap (fun j hj => hchk j (by omega))) not_false
  have hcapstop : MAX_OUTPUT_LINES ≤ 1 + countFor ((visList L).take k) (-2) :=
    hstop.resolve_left (by omega)
  have h1 : ((List.range L.length).filter (visibleB L)).filter
        (fun i : Nat => decide (lastOfD ((visList L).take k) (-2) < (i : Int))) =
      (List.range L.length).filter
        (fun i => visibleB L i && decide (lastOfD ((visList L).take k) (-2) < (i : Int))) := by
    rw [List.filter_filter]
    refine List.filter_congr ?_
    intro x _
    exact Bool.and_comm _ _
  have h2 : (visList L).filter
        (fun i : Nat => decide (lastOfD ((visList L).take k) (-2) < (i : Int))) =
      (visList L).drop k :=
    filter_gt_lastOf (visList L) k (-2) (visList_pairwise L)
      (by intro x hx; omega) (le_of_lt hklt)
  have hrem : ((List.range L.length).filter fun i =>
        visibleB L i && decide (lastOfD ((visList L).take k) (-2) < (i : Int))).length =
      (visList L).length - k := by
    rw [← h1]
    have hfold : (List.range L.length).filter (visibleB L) = visList L := rfl
    rw [hfold, h2, List.length_drop]
  refine ⟨k, hklt, hcapstop, ?_⟩
  rw [renderDiff_eq, ← hL, if_neg hch, heq]
  dsimp only
  rw [hrem]
  rw [if_pos ⟨hcapstop, by omega⟩]

set_option maxRecDepth 100000 in
theorem renderDiff_cap_hidden_count_witness :
    MAX_OUTPUT_LINES < uncappedTotal (diffLinesOf ((List.replicate 90 ['x', '\n']).flatten) [] []) ∧
    (∃ k, k < (visList (diffLinesOf ((List.replicate 90 ['x', '\n']).flatten) [] [])).length ∧
      MAX_OUTPUT_LINES ≤
        1 + countFor ((visList (diffLinesOf ((List.replicate 90 ['x', '\n']).flatten) [] [])).take k) (-2) ∧
      renderDiff ((List.replicate 90 ['x', '\n']).flatten) [] [] =
        diffHeader [] ++
        (partsFor (diffLinesOf ((List.replicate 90 ['x', '\n']).flatten) [] [])
          ((visList (diffLinesOf ((List.replicate 90 ['x', '\n']).flatten) [] [])).take k) (-2)).flatten ++
        hiddenMarker ((visList (diffLinesOf ((List.replicate 90 ['x', '\n']).flatten) [] [])).length - k)) :=
  ⟨by decide, renderDiff_cap_hidden_count _ _ _ (by decide)⟩
end TodoCli
